import Mathlib

/-!
Verification of the twitch chat-bot core (gateway + brain) against its
specification.  Pure Lean models of the relevant Python modules:

* `ai_chat_brain/session_buffer.py`  — `ChannelBuffer` (rolling window)
* `ai_chat_brain/policy.py`         — `decide_autospeak`
* `ai_chat_brain/generator.py`      — `OllamaGenerator._call_ollama_sync`
* `ai_chat_brain/summarizer.py`     — `extract_questions`
* `ai_chat_brain/filters.py`        — `TextFilters.normalize`
* `twitch_gateway/token_manager.py` — `_refresh` / `_write_file_atomic`
* `twitch_gateway/main.py`          — `process_out_one`
* `twitch_gateway/irc.py`           — `parse_irc_line`, `TwitchIrcClient.lines`
* `twitch_gateway/rate_limit.py`    — `TokenBucket.acquire`

Machine integers of the source are Python unbounded ints, modelled as `Int`
(or `Nat` where the source value is a count); Python floats of the token
bucket and generator options are modelled as `Rat`.  Time is passed
explicitly: every Python call to `time.time()` / `time.monotonic()` becomes
a `now` argument of the model.
-/

namespace TwitchRag

/-! ### Python string primitives

Python strings are modelled as Lean `String`s, manipulated through their
codepoint lists so that everything reduces by computation.  Whitespace is
the ASCII whitespace set shared by `str.strip`, `str.split()` and the
regex `\s` (the rarely seen non-ASCII Unicode spaces are outside the
model); `str.lower` is modelled by the ASCII `Char.toLower`. -/

/-- ASCII whitespace, as recognized by Python `str.strip` and `\s`. -/
def isPySpace (c : Char) : Bool :=
  c = ' ' || c = '\t' || c = '\n' || c = '\r' || c = '\x0b' || c = '\x0c'

/-- Python `str.strip` on a codepoint list. -/
def stripChars (l : List Char) : List Char :=
  ((l.dropWhile isPySpace).reverse.dropWhile isPySpace).reverse

/-- Python `str.strip`. -/
def pyStrip (s : String) : String := ⟨stripChars s.data⟩

/-- Python `str.lower` (ASCII model). -/
def pyLower (s : String) : String := ⟨s.data.map Char.toLower⟩

/-- Python `c in s` for a single-character needle. -/
def pyContainsChar (s : String) (c : Char) : Bool := s.data.contains c

/-- `ai_chat_brain/models.py` : `ChatItem`. -/
structure ChatItem where
  ts : Int
  channel : String
  user : String
  text : String
deriving Repr, DecidableEq

/-- `ai_chat_brain/session_buffer.py` : `ChannelStats`. -/
structure ChannelStats where
  last_message_ts : Int
  msgs_last_10s : Nat
  msgs_last_60s : Nat
deriving Repr, DecidableEq

/-- `ai_chat_brain/session_buffer.py` : `ChannelBuffer` (fields of `__init__`). -/
structure ChannelBuffer where
  window_sec : Int
  max_items : Nat
  items : List ChatItem
deriving Repr, DecidableEq

namespace ChannelBuffer

/-- `ChannelBuffer._trim`: drop from the front while `front.ts < now - window_sec`,
then drop from the front while the length exceeds `max_items`.  `now` is the
Python `int(time.time())` at the moment of the call. -/
def trim (now : Int) (b : ChannelBuffer) : ChannelBuffer :=
  let cutoff := now - b.window_sec
  let l1 := b.items.dropWhile (fun it => decide (it.ts < cutoff))
  let l2 := l1.drop (l1.length - b.max_items)
  { b with items := l2 }

/-- `ChannelBuffer.add`: append, then `_trim` at the add time. -/
def add (now : Int) (item : ChatItem) (b : ChannelBuffer) : ChannelBuffer :=
  trim now { b with items := b.items ++ [item] }

/-- `ChannelBuffer.snapshot`: `_trim`, then materialize the deque
(optionally only the last `n` entries, Python `list[-n:]` for `n > 0`).
Returns the produced list together with the post-trim buffer state. -/
def snapshot (now : Int) (last_n : Option Int) (b : ChannelBuffer) :
    List ChatItem × ChannelBuffer :=
  let b1 := trim now b
  match last_n with
  | none => (b1.items, b1)
  | some n =>
      if n ≤ 0 then (b1.items, b1)
      else (b1.items.drop (b1.items.length - n.toNat), b1)

/-- `ChannelBuffer.stats`: `_trim`, then activity counters against `now`. -/
def stats (now : Int) (b : ChannelBuffer) : ChannelStats × ChannelBuffer :=
  let b1 := trim now b
  (if b1.items.isEmpty then
    { last_message_ts := 0, msgs_last_10s := 0, msgs_last_60s := 0 }
  else
    { last_message_ts := (b1.items.getLast?.map ChatItem.ts).getD 0
      msgs_last_10s := b1.items.countP (fun it => decide (it.ts ≥ now - 10))
      msgs_last_60s := b1.items.countP (fun it => decide (it.ts ≥ now - 60)) }, b1)

/-- A fresh buffer (`__init__`) followed by a sequence of `add` calls;
each event is the pair (time of the call, item added). -/
def addAll (b : ChannelBuffer) (events : List (Int × ChatItem)) : ChannelBuffer :=
  events.foldl (fun acc e => acc.add e.1 e.2) b

end ChannelBuffer

/-- `ai_chat_brain/models.py` : `Summary`. -/
structure Summary where
  channel : String
  topic : String
  keywords : List String
  questions : List String
  topic_fingerprint : String
  msgs_last_10s : Int
  msgs_last_60s : Int
  last_message_age_sec : Int
  bullets : List String
deriving Repr, DecidableEq

/-- `ai_chat_brain/models.py` : `PolicyState` (defaults of the dataclass). -/
structure PolicyState where
  last_speak_ts : Int := 0
  last_topic_fp : String := ""
  last_topic_ts : Int := 0
  last_mention_reply_ts : Int := 0
  last_ai_reply_ts : Int := 0
deriving Repr, DecidableEq

/-- The speaking/anti-spam fields of `ai_chat_brain/models.py` : `Settings`
(the fields read by `policy.py`; the remaining fields of the frozen
dataclass do not influence the policy functions). -/
structure Settings where
  quiet_after_sec : Int
  busy_chat_msgs_10s : Int
  speak_every_sec : Int
  topic_cooldown_sec : Int
  mention_cooldown_sec : Int
  ai_cooldown_sec : Int
  auto_speak_enabled : Bool
deriving Repr, DecidableEq

/-- `ai_chat_brain/policy.py` : class `SpeakReason`. -/
def SpeakReason.MENTION : String := "mention"

/-- `ai_chat_brain/policy.py` : class `SpeakReason`. -/
def SpeakReason.AI_COMMAND : String := "ai_command"

/-- `ai_chat_brain/policy.py` : class `SpeakReason`. -/
def SpeakReason.SILENCE : String := "silence"

/-- `ai_chat_brain/policy.py` : class `SpeakReason`. -/
def SpeakReason.TOPIC_SHIFT : String := "topic_shift"

/-- `ai_chat_brain/policy.py` : `decide_autospeak`.  `now` is the Python
`int(time.time())` read inside the function. -/
def decide_autospeak (now : Int) (state : PolicyState) (settings : Settings)
    (summary : Option Summary) : Option String :=
  if !settings.auto_speak_enabled then none
  else match summary with
  | none => none
  | some s =>
      if now - state.last_speak_ts < settings.speak_every_sec then none
      else if s.msgs_last_10s > settings.busy_chat_msgs_10s then none
      else if s.last_message_age_sec ≥ settings.quiet_after_sec then
        some SpeakReason.SILENCE
      else if s.topic_fingerprint ≠ "" ∧ s.topic_fingerprint ≠ state.last_topic_fp then
        (if now - state.last_topic_ts ≥ settings.topic_cooldown_sec then
          some SpeakReason.TOPIC_SHIFT
        else none)
      else none

/-- The decision procedure exactly as the claim words it: `None` when
auto-speak is disabled or the summary is empty; else `None` under the
global cooldown; else `None` when the chat is busy; else `SILENCE` on
quiet; else `TOPIC_SHIFT` on a cooled-down topic change; else `None`. -/
def decide_autospeak_claim (now : Int) (state : PolicyState) (settings : Settings)
    (summary : Option Summary) : Option String :=
  if settings.auto_speak_enabled = false ∨ summary = none then none
  else match summary with
  | none => none
  | some s =>
      if now - state.last_speak_ts < settings.speak_every_sec then none
      else if s.msgs_last_10s > settings.busy_chat_msgs_10s then none
      else if s.last_message_age_sec ≥ settings.quiet_after_sec then
        some SpeakReason.SILENCE
      else if s.topic_fingerprint ≠ "" ∧ s.topic_fingerprint ≠ state.last_topic_fp ∧
          now - state.last_topic_ts ≥ settings.topic_cooldown_sec then
        some SpeakReason.TOPIC_SHIFT
      else none

/-- The dedup-and-cap loop inside `ai_chat_brain/summarizer.py` :
`extract_questions`: skip texts whose lower-cased form was seen, keep
first occurrences, stop once `topk` entries were kept (Python `str.lower`
is modelled by the ASCII `String.toLower`). -/
def dedupLoop : Nat → List String → List String → List String
  | _, _, [] => []
  | topk, seen, q :: rest =>
      if pyLower q ∈ seen then dedupLoop topk seen rest
      else if topk ≤ 1 then [q]
      else q :: dedupLoop (topk - 1) (pyLower q :: seen) rest

/-- `ai_chat_brain/summarizer.py` : `extract_questions`: collect the
stripped text of each item containing `?` when the stripped text is longer
than 2 characters, then deduplicate case-insensitively capping at `topk`. -/
def extract_questions (items : List ChatItem) (topk : Nat) : List String :=
  let qs := items.filterMap (fun it =>
    if pyContainsChar it.text '?' && decide (2 < (pyStrip it.text).length) then
      some (pyStrip it.text)
    else none)
  dedupLoop topk [] qs

/-- Case-insensitive first-occurrence deduplication (specification-side
helper for the claims about `extract_questions`). -/
def dedupCIgo : List String → List String → List String
  | _, [] => []
  | seen, q :: rest =>
      if pyLower q ∈ seen then dedupCIgo seen rest
      else q :: dedupCIgo (pyLower q :: seen) rest

/-- Case-insensitive dedup keeping first occurrences. -/
def dedupCI (l : List String) : List String := dedupCIgo [] l

/-- The `questions` field exactly as the claim words it: the original texts
of the items whose text contains `?`, deduplicated case-insensitively
keeping the first occurrence, capped at `topk`, in arrival order. -/
def questions_claimed (items : List ChatItem) (topk : Nat) : List String :=
  (dedupCI ((items.filter (fun it => pyContainsChar it.text '?')).map ChatItem.text)).take
    topk

/-- The `questions` field as the code computes it (claim C5 amended): the
stripped texts of the items whose text contains `?` and whose stripped
text is longer than 2 characters, deduplicated case-insensitively keeping
the first occurrence, capped at 3, in arrival order. -/
def questions_amended (items : List ChatItem) : List String :=
  (dedupCI ((items.filter (fun it =>
      pyContainsChar it.text '?' && decide (2 < (pyStrip it.text).length))).map
    (fun it => pyStrip it.text))).take 3

/-! ### IRC line codec (`twitch_gateway/irc.py`, `twitch_gateway/models.py`) -/

/-- `twitch_gateway/models.py` : `IrcMessage`.  The Python `tags` dict is
modelled as the association list of parsed pairs in insertion order; the
`prefix` field is called `prefixStr`. -/
structure IrcMessage where
  raw : String
  tags : List (String × String)
  prefixStr : Option String
  command : String
  params : List String
  trailing : Option String
deriving Repr, DecidableEq

/-- Python `s.split(sep, 1)` when it produces two parts: the part before
the first `sep` and the part after.  `none` when `sep` does not occur —
there the Python two-target unpacking `a, b = s.split(sep, 1)` raises. -/
def splitOnce (sep : Char) : List Char → Option (List Char × List Char)
  | [] => none
  | c :: rest =>
      if c = sep then some ([], rest)
      else (splitOnce sep rest).map (fun p => (c :: p.1, p.2))

/-- Python `s.split(sep)` (unbounded, keeps empty parts). -/
def splitChar (sep : Char) : List Char → List (List Char)
  | [] => [[]]
  | c :: rest =>
      if c = sep then [] :: splitChar sep rest
      else
        match splitChar sep rest with
        | [] => [[c]]
        | h :: t => (c :: h) :: t

/-- Split at the leftmost occurrence of the two-character sequence
`" :"` (Python `rest.split(" :", 1)` after the `" :" in rest` check). -/
def splitSpaceColon : List Char → Option (List Char × List Char)
  | ' ' :: ':' :: rest => some ([], rest)
  | c :: rest => (splitSpaceColon rest).map (fun p => (c :: p.1, p.2))
  | [] => none

/-- Python `s.split()` with no argument: split on whitespace runs,
discarding empty tokens (`acc` holds the current token reversed). -/
def wordsAux : List Char → List Char → List (List Char)
  | acc, [] => if acc.isEmpty then [] else [acc.reverse]
  | acc, c :: rest =>
      if isPySpace c then
        (if acc.isEmpty then wordsAux [] rest else acc.reverse :: wordsAux [] rest)
      else wordsAux (c :: acc) rest

/-- Python `s.split()`. -/
def pyWords (l : List Char) : List (List Char) := wordsAux [] l

/-- The tag loop of `parse_irc_line`: split on `;`, each item being
`key[=value]` with a missing `=` meaning an empty value. -/
def parseTags (tagsPart : List Char) : List (String × String) :=
  (splitChar ';' tagsPart).map (fun kv =>
    match splitOnce '=' kv with
    | some p => (⟨p.1⟩, ⟨p.2⟩)
    | none => (⟨kv⟩, ""))

/-- Python `s.startswith(c)` for a one-character needle. -/
def startsWith (c : Char) : List Char → Bool
  | [] => false
  | d :: _ => d == c

/-- `twitch_gateway/irc.py` : `parse_irc_line`.  `none` models the
`ValueError` escaping from a failed two-way `split(" ", 1)` unpacking. -/
def parse_irc_line (line : String) : Option IrcMessage :=
  let rest0 := line.data
  let tagsStep : Option (List (String × String) × List Char) :=
    if startsWith '@' rest0 then
      match splitOnce ' ' rest0 with
      | none => none
      | some p =>
          let tp1 := p.1.drop 1
          some (if tp1.isEmpty then [] else parseTags tp1, p.2)
    else some ([], rest0)
  match tagsStep with
  | none => none
  | some tr =>
      let rest1 := tr.2
      let prefStep : Option (Option String × List Char) :=
        if startsWith ':' rest1 then
          match splitOnce ' ' rest1 with
          | none => none
          | some p => some (some ⟨p.1.drop 1⟩, p.2)
        else some (none, rest1)
      match prefStep with
      | none => none
      | some pr =>
          let headTrail : List Char × Option String :=
            match splitSpaceColon pr.2 with
            | some p => (p.1, some ⟨p.2⟩)
            | none => (pr.2, none)
          let parts := pyWords headTrail.1
          some { raw := line
                 tags := tr.1
                 prefixStr := pr.1
                 command := match parts with | [] => "" | p :: _ => ⟨p⟩
                 params := (parts.drop 1).map (fun w => (⟨w⟩ : String))
                 trailing := headTrail.2 }

/-- The exception condition of `parse_irc_line` exactly as claim C9 words
it: the line begins with `@` and its tags section is not followed by a
space, or the remainder after the tags section begins with `:` and
contains no later space. -/
def c9_prefix_bad (r : List Char) : Bool :=
  if startsWith ':' r then !(r.contains ' ') else false

/-- Claim C9's characterization of the inputs on which `parse_irc_line`
raises. -/
def c9_raises (line : String) : Bool :=
  if startsWith '@' line.data then
    match splitOnce ' ' line.data with
    | none => true
    | some p => c9_prefix_bad p.2
  else c9_prefix_bad line.data

/-- Python `raw.decode().rstrip("\r\n")` in `TwitchIrcClient.lines`. -/
def stripCRLF (s : String) : String :=
  ⟨(s.data.reverse.dropWhile (fun c => c = '\r' || c = '\n')).reverse⟩

/-- `msg.trailing or (msg.params[0] if msg.params else "")` — the PONG
payload chosen in `TwitchIrcClient.lines` (Python `or`: an empty trailing
falls through to the first parameter). -/
def pingPayload (m : IrcMessage) : String :=
  match m.trailing with
  | some t =>
      if t = "" then (match m.params with | p :: _ => p | [] => "") else t
  | none => match m.params with | p :: _ => p | [] => ""

/-- The read loop of `TwitchIrcClient.lines` over a list of received raw
lines: strip CRLF, parse, answer `PING` with `PONG :payload` and continue
without yielding, yield everything else.  Returns the written PONG lines
and the yielded messages, or `none` if a parse error escapes. -/
def runLines : List String → Option (List String × List IrcMessage)
  | [] => some ([], [])
  | raw :: rest =>
      match parse_irc_line (stripCRLF raw) with
      | none => none
      | some m =>
          match runLines rest with
          | none => none
          | some p =>
              if m.command = "PING" then
                some (("PONG :" ++ pingPayload m) :: p.1, p.2)
              else some (p.1, m :: p.2)

/-! ### Text filters (`ai_chat_brain/filters.py`, `ai_chat_brain/config.py`) -/

/-- `config.py` : `REPEAT_RE = re.compile(r"(.)\1{6,}")` with substitution
`\1\1\1` in `TextFilters.normalize`: every maximal run of at least 7
identical characters is collapsed to exactly 3.  The regex dot does not
match a newline, so newline runs are left untouched. -/
def collapseRuns (l : List Char) : List Char :=
  match l with
  | [] => []
  | c :: rest =>
      let n := 1 + (rest.takeWhile (fun d => d == c)).length
      let m := if 7 ≤ n ∧ c ≠ '\n' then 3 else n
      List.replicate m c ++ collapseRuns (rest.dropWhile (fun d => d == c))
termination_by l.length
decreasing_by
  simp only [List.length_cons]
  have h := (List.dropWhile_suffix (l := rest) (fun d => d == c)).sublist.length_le
  omega

/-- `re.sub(r"\s+", " ", t)` in `TextFilters.normalize`: every whitespace
run becomes a single space. -/
def collapseWs : List Char → List Char
  | [] => []
  | [a] => if isPySpace a then [' '] else [a]
  | a :: b :: rest =>
      if isPySpace a && isPySpace b then collapseWs (b :: rest)
      else (if isPySpace a then ' ' else a) :: collapseWs (b :: rest)

/-- `ai_chat_brain/filters.py` : `TextFilters.normalize` on codepoint
lists: strip, collapse ≥ 7 repeats to 3, collapse whitespace runs. -/
def normalizeChars (l : List Char) : List Char :=
  collapseWs (collapseRuns (stripChars l))

/-- `ai_chat_brain/filters.py` : `TextFilters.normalize`. -/
def TextFilters.normalize (text : String) : String := ⟨normalizeChars text.data⟩

/-! ### LLM generator (`ai_chat_brain/generator.py`) -/

/-- The fields `_extract` and `_call_ollama_sync` read from an Ollama
response body: `message.content`, `message.thinking`, top-level
`response`, `done_reason` and the `error` field (empty string = absent,
matching Python truthiness of `data.get(...)`). -/
structure OllamaResp where
  message_content : String
  message_thinking : String
  response : String
  done_reason : String
  error : String
deriving Repr, DecidableEq

/-- `generator.py` : `_CJK_RE` codepoint ranges. -/
def isCJK (c : Char) : Bool :=
  (0x4e00 ≤ c.toNat && c.toNat ≤ 0x9fff) ||
  (0x3040 ≤ c.toNat && c.toNat ≤ 0x30ff) ||
  (0xac00 ≤ c.toNat && c.toNat ≤ 0xd7af)

/-- `generator.py` : `_CYR_RE` (`[А-Яа-яЁё]`). -/
def isCyr (c : Char) : Bool :=
  (0x410 ≤ c.toNat && c.toNat ≤ 0x44f) || c = 'Ё' || c = 'ё'

/-- `generator.py` : `_LAT_RE` (`[A-Za-z]`). -/
def isLat (c : Char) : Bool :=
  ('A' ≤ c && c ≤ 'Z') || ('a' ≤ c && c ≤ 'z')

/-- `generator.py` : `_looks_russian`. -/
def looks_russian (text : String) : Bool :=
  if text = "" then true
  else if text.data.any isCJK then false
  else
    let cyr := text.data.countP isCyr
    let lat := text.data.countP isLat
    if cyr = 0 && lat = 0 then true
    else decide (max 1 (lat * 2) ≤ cyr)

/-- `generator.py` : `OllamaGenerator._extract`:
`content := (message.content or response or "").strip()`, plus the
stripped `thinking` and `done_reason`. -/
def extract (r : OllamaResp) : String × String × String :=
  (pyStrip (if r.message_content ≠ "" then r.message_content else r.response),
   pyStrip r.message_thinking,
   pyStrip r.done_reason)

/-- The configuration flags of `_call_ollama_sync` that decide whether a
language retry may happen (`ollama_force_ru`, `ollama_retry_non_ru`);
the numeric option knobs only shape payloads, never the number of
requests. -/
structure OllamaCfg where
  force_ru : Bool
  retry_non_ru : Bool
deriving Repr, DecidableEq

/-- The tail of `_call_ollama_sync` after `content` is settled: the
non-Russian retry (third POST when it fires), returning the final content
and the total request count. -/
def ruPhase (cfg : OllamaCfg) (content : String) (r3 : OllamaResp)
    (count : Nat) : Except String String × Nat :=
  if cfg.force_ru && cfg.retry_non_ru && content ≠ "" && !(looks_russian content) then
    if r3.error ≠ "" then (Except.error r3.error, count + 1)
    else
      let c3 := (extract r3).1
      if c3 ≠ "" then (Except.ok c3, count + 1)
      else (Except.ok content, count + 1)
  else (Except.ok content, count)

/-- `generator.py` : `OllamaGenerator._call_ollama_sync`, abstracted over
the responses `r1, r2, r3` the endpoint would return to the first, second
and third POST of one invocation.  Returns the produced content (or the
raised exception's message) together with the number of HTTP requests
issued. -/
def call_ollama_sync (cfg : OllamaCfg) (r1 r2 r3 : OllamaResp) :
    Except String String × Nat :=
  if r1.error ≠ "" then (Except.error r1.error, 1)
  else
    let content1 := (extract r1).1
    let done1 := (extract r1).2.2
    if content1 = "" ∨ done1 = "length" then
      if r2.error ≠ "" then (Except.error r2.error, 2)
      else
        let content2 := (extract r2).1
        if content2 ≠ "" then ruPhase cfg content2 r3 2
        else (Except.error "Empty content from Ollama (thinking-only or truncated)", 2)
    else ruPhase cfg content1 r3 1

/-! ### Token manager (`twitch_gateway/token_manager.py`) -/

/-- A JSON value as the token document uses them. -/
inductive JVal where
  | str (s : String)
  | num (n : Int)
  | arr (l : List String)
  | null
deriving Repr, DecidableEq

/-- Python truthiness of a JSON value. -/
def JVal.truthy : JVal → Bool
  | .str s => s ≠ ""
  | .num n => n ≠ 0
  | .arr l => !l.isEmpty
  | .null => false

/-- Python `str(...)` on the values the token flow actually carries
(strings; the other shapes are not exercised by the theorems, which pin
the relevant fields to `JVal.str`/`JVal.num`). -/
def JVal.asString : JVal → String
  | .str s => s
  | .num n => toString n
  | .arr _ => ""
  | .null => ""

/-- Python `int(...)` on the values the token flow actually carries. -/
def JVal.asInt : JVal → Int
  | .num n => n
  | _ => 0

/-- A JSON object in key insertion order (as `json.load` yields it;
keys unique). -/
abbrev Doc := List (String × JVal)

/-- `token_manager.py` : `TokenBundle` (the dataclass keeps the raw
truthy values for `refresh_token`/`scope`/`token_type`). -/
structure TokenBundle where
  access_token : String
  refresh_token : Option JVal
  scope : Option JVal
  token_type : Option JVal
  expires_in : Option Int
  obtained_at : Option Int
deriving Repr, DecidableEq

/-- `TokenBundle.from_dict`: `access_token=str(d.get("access_token") or "")`,
`refresh_token=d.get("refresh_token") or None` (likewise `scope`,
`token_type`), `expires_in=int(d["expires_in"])` when present and not
null (likewise `obtained_at`). -/
def TokenBundle.from_dict (d : Doc) : TokenBundle :=
  let truthyGet := fun (k : String) =>
    match List.lookup k d with
    | some v => if v.truthy then some v else none
    | none => none
  { access_token :=
      match List.lookup "access_token" d with
      | some v => if v.truthy then v.asString else ""
      | none => ""
    refresh_token := truthyGet "refresh_token"
    scope := truthyGet "scope"
    token_type := truthyGet "token_type"
    expires_in :=
      match List.lookup "expires_in" d with
      | some JVal.null => none
      | some v => some v.asInt
      | none => none
    obtained_at :=
      match List.lookup "obtained_at" d with
      | some JVal.null => none
      | some v => some v.asInt
      | none => none }

/-- `TokenBundle.to_dict`: emit `access_token` and then each present
optional field, in the dataclass's order. -/
def TokenBundle.to_dict (tb : TokenBundle) : Doc :=
  [("access_token", JVal.str tb.access_token)] ++
  (match tb.refresh_token with | some v => [("refresh_token", v)] | none => []) ++
  (match tb.scope with | some v => [("scope", v)] | none => []) ++
  (match tb.token_type with | some v => [("token_type", v)] | none => []) ++
  (match tb.expires_in with | some n => [("expires_in", JVal.num n)] | none => []) ++
  (match tb.obtained_at with | some n => [("obtained_at", JVal.num n)] | none => [])

/-- Python `existing.update(payload)`: keys of `existing` keep their
position and take the payload's value when it has one; payload keys not
in `existing` are appended in payload order. -/
def dictUpdate (existing payload : Doc) : Doc :=
  existing.map (fun kv => (kv.1, (List.lookup kv.1 payload).getD kv.2)) ++
    payload.filter (fun kv => (List.lookup kv.1 existing) = none)

/-- `token_manager.py` : `_write_file_atomic` — merge the bundle into the
existing document (preserving unknown keys) and atomically replace the
file; the returned `Doc` is what a subsequent `_read_file` parses.
(`prior = none` models a missing or unreadable file, where the payload is
written as is.) -/
def write_file_atomic (prior : Option Doc) (tb : TokenBundle) : Doc :=
  dictUpdate (prior.getD []) tb.to_dict

/-- `token_manager.py` : `_refresh`, success path of a 200 response
`resp`: build the bundle from the response, retain the old rotating token
when the response omits one, stamp `obtained_at := now`, persist
atomically.  `fileDoc` is the token file's current document;
`refresh_token_arg` is the refresh token sent (the callers pass the
file's current one). -/
def refresh (fileDoc : Doc) (refresh_token_arg : String) (resp : Doc)
    (now : Int) : Except String (TokenBundle × Doc) :=
  let tb := TokenBundle.from_dict resp
  if tb.access_token = "" then
    Except.error "Refresh response missing access_token"
  else
    let tb1 :=
      if tb.refresh_token = none then
        { tb with refresh_token := some (JVal.str refresh_token_arg) }
      else tb
    let tb2 := { tb1 with obtained_at := some now }
    Except.ok (tb2, write_file_atomic (some fileDoc) tb2)

/-! ### Gateway outbound sender (`twitch_gateway/main.py`) -/

/-- `twitch_gateway/main.py` : `normalize_channel` — strip, remove every
leading `#`, lowercase (ASCII model of `str.lower`). -/
def normalize_channel (ch : String) : String :=
  ⟨((stripChars ch.data).dropWhile (fun c => c = '#')).map Char.toLower⟩

/-- One observable effect of `process_out_one` on its collaborators. -/
inductive Effect where
  | acquire (amount : Nat)
  | privmsg (channel : String) (text : String) (reply_to : Option String)
  | ack (id : String)
deriving Repr, DecidableEq

/-- Python `data.get(k, "")` over the OUT entry's field map (Redis hashes
deliver string fields; a missing key and an empty value are both falsy). -/
def fieldGet (data : List (String × String)) (k : String) : String :=
  (List.lookup k data).getD ""

/-- `data.get("reply_to") or data.get("reply_parent_msg_id") or None`. -/
def replyToOf (data : List (String × String)) : Option String :=
  if fieldGet data "reply_to" ≠ "" then some (fieldGet data "reply_to")
  else if fieldGet data "reply_parent_msg_id" ≠ "" then
    some (fieldGet data "reply_parent_msg_id")
  else none

/-- `twitch_gateway/main.py` : `process_out_one` as the ordered effect
trace of one OUT entry: on a missing channel or text, warn and ack only;
otherwise acquire one token, emit the PRIVMSG (with its reply
correlation) and ack. -/
def process_out_one (msg_id : String) (data : List (String × String)) :
    List Effect :=
  let channel := normalize_channel (fieldGet data "channel")
  let text := fieldGet data "text"
  if channel = "" ∨ text = "" then [Effect.ack msg_id]
  else
    [Effect.acquire 1, Effect.privmsg channel text (replyToOf data),
     Effect.ack msg_id]

/-! ### Token bucket (`twitch_gateway/rate_limit.py`) -/

/-- `twitch_gateway/rate_limit.py` : `TokenBucket` state (floats as
rationals; `updated_at` is the monotonic clock of the last refill). -/
structure TokenBucket where
  capacity : Rat
  window_sec : Rat
  tokens : Rat
  updated_at : Rat
deriving Repr, DecidableEq

/-- `TokenBucket.__init__`: clamp capacity and window to at least 1,
start full at monotonic time `now`. -/
def TokenBucket.init (capacity window_sec : Int) (now : Rat) : TokenBucket :=
  { capacity := max 1 (capacity : Rat)
    window_sec := max 1 (window_sec : Rat)
    tokens := max 1 (capacity : Rat)
    updated_at := now }

/-- `TokenBucket._refill` at monotonic time `now`. -/
def TokenBucket.refill (now : Rat) (b : TokenBucket) : TokenBucket :=
  { b with
    updated_at := now
    tokens := min b.capacity
      (b.tokens + (now - b.updated_at) * (b.capacity / b.window_sec)) }

/-- `TokenBucket.acquire` run against an explicit sleep schedule: each
iteration refills, succeeds when `tokens ≥ amount`, else computes
`wait = max 0.01 ((amount - tokens) / rate)` and sleeps; the wake-up of
iteration `i+1` happens at `now + wait + deltas[i]` (`deltas[i] ≥ 0` is
the extra delay `asyncio.sleep` may add).  `none` means the schedule ran
out with the loop still spinning — the loop never returned. -/
def TokenBucket.acquireLoop (amount : Rat) :
    TokenBucket → Rat → List Rat → Option TokenBucket
  | b, now, [] =>
      let b1 := TokenBucket.refill now b
      if amount ≤ b1.tokens then some { b1 with tokens := b1.tokens - amount }
      else none
  | b, now, d :: ds =>
      let b1 := TokenBucket.refill now b
      if amount ≤ b1.tokens then some { b1 with tokens := b1.tokens - amount }
      else
        TokenBucket.acquireLoop amount b1
          (now + max (1 / 100)
            ((amount - b1.tokens) / (b1.capacity / b1.window_sec)) + d) ds

-- ===== THEOREMS =====

namespace ChannelBuffer

theorem trim_items_eq (now : Int) (b : ChannelBuffer) :
    (trim now b).items =
      (b.items.dropWhile (fun it => decide (it.ts < now - b.window_sec))).drop
        ((b.items.dropWhile (fun it => decide (it.ts < now - b.window_sec))).length -
          b.max_items) := rfl

theorem trim_window (now : Int) (b : ChannelBuffer) :
    (trim now b).window_sec = b.window_sec := rfl

theorem trim_max (now : Int) (b : ChannelBuffer) :
    (trim now b).max_items = b.max_items := rfl

theorem trim_suffix (now : Int) (b : ChannelBuffer) :
    (trim now b).items <:+ b.items := by
  rw [trim_items_eq]
  exact (List.drop_suffix _ _).trans (List.dropWhile_suffix _)

theorem trim_length_le (now : Int) (b : ChannelBuffer) :
    (trim now b).items.length ≤ b.max_items := by
  rw [trim_items_eq, List.length_drop]
  omega

theorem mem_dropWhile_ts_ge (cutoff : Int) :
    ∀ (l : List ChatItem), l.Pairwise (fun a b => a.ts ≤ b.ts) →
      ∀ x ∈ l.dropWhile (fun it => decide (it.ts < cutoff)), cutoff ≤ x.ts := by
  intro l
  induction l with
  | nil => intro _ x hx; simp [List.dropWhile] at hx
  | cons a t ih =>
      intro hp x hx
      rw [List.dropWhile_cons] at hx
      by_cases h : a.ts < cutoff
      · simp only [h, decide_eq_true_eq, if_pos] at hx
        exact ih (List.Pairwise.of_cons hp) x hx
      · simp only [h, decide_eq_true_eq, if_neg, decide_eq_false_iff_not,
          not_false_eq_true] at hx
        rcases List.mem_cons.mp hx with rfl | hx
        · omega
        · have hle := (List.pairwise_cons.mp hp).1 x hx
          omega

theorem mem_trim_ts_ge (now : Int) (b : ChannelBuffer)
    (hp : b.items.Pairwise (fun a b => a.ts ≤ b.ts)) :
    ∀ x ∈ (trim now b).items, now - b.window_sec ≤ x.ts := by
  intro x hx
  rw [trim_items_eq] at hx
  exact mem_dropWhile_ts_ge (now - b.window_sec) b.items hp x
    (List.drop_subset _ _ hx)

theorem trim_pairwise (now : Int) (b : ChannelBuffer)
    (hp : b.items.Pairwise (fun a b => a.ts ≤ b.ts)) :
    (trim now b).items.Pairwise (fun a b => a.ts ≤ b.ts) :=
  List.Pairwise.sublist (trim_suffix now b).sublist hp

theorem suffix_append_right {α : Type} {u v : List α} (w : List α) (h : u <:+ v) :
    u ++ w <:+ v ++ w := by
  obtain ⟨t, rfl⟩ := h
  exact ⟨t, by simp⟩

theorem addAll_spec :
    ∀ (events : List (Int × ChatItem)) (b0 : ChannelBuffer),
      b0.items.Pairwise (fun a b => a.ts ≤ b.ts) →
      (∀ x ∈ b0.items, ∀ e ∈ events, x.ts ≤ e.2.ts) →
      events.Pairwise (fun e f => e.2.ts ≤ f.2.ts) →
      (addAll b0 events).window_sec = b0.window_sec ∧
      (addAll b0 events).max_items = b0.max_items ∧
      (addAll b0 events).items.Pairwise (fun a b => a.ts ≤ b.ts) ∧
      (addAll b0 events).items <:+ b0.items ++ events.map Prod.snd := by
  intro events
  induction events with
  | nil =>
      intro b0 h1 _ _
      refine ⟨rfl, rfl, h1, ?_⟩
      simp [addAll]
  | cons e rest ih =>
      intro b0 h1 h2 h3
      have hstep : addAll b0 (e :: rest) = addAll (b0.add e.1 e.2) rest := rfl
      set b1 := b0.add e.1 e.2 with hb1
      have happ : (b0.items ++ [e.2]).Pairwise (fun a b => a.ts ≤ b.ts) := by
        rw [List.pairwise_append]
        refine ⟨h1, List.pairwise_singleton _ _, ?_⟩
        intro x hx y hy
        rcases List.mem_singleton.mp hy with rfl
        exact h2 x hx e (List.mem_cons_self _ _)
      have hb1p : b1.items.Pairwise (fun a b => a.ts ≤ b.ts) :=
        trim_pairwise e.1 { b0 with items := b0.items ++ [e.2] } happ
      have hb1s : b1.items <:+ b0.items ++ [e.2] :=
        trim_suffix e.1 { b0 with items := b0.items ++ [e.2] }
      have hb1w : b1.window_sec = b0.window_sec := rfl
      have hb1m : b1.max_items = b0.max_items := rfl
      have hb1f : ∀ x ∈ b1.items, ∀ f ∈ rest, x.ts ≤ f.2.ts := by
        intro x hx f hf
        rcases List.mem_append.mp (hb1s.sublist.subset hx) with hx0 | hx1
        · exact h2 x hx0 f (List.mem_cons_of_mem _ hf)
        · rcases List.mem_singleton.mp hx1 with rfl
          exact (List.pairwise_cons.mp h3).1 f hf
      obtain ⟨hw, hm, hpw, hsuf⟩ := ih b1 hb1p hb1f (List.Pairwise.of_cons h3)
      refine ⟨by rw [hstep, hw, hb1w], by rw [hstep, hm, hb1m], by rw [hstep]; exact hpw, ?_⟩
      rw [hstep]
      refine hsuf.trans ?_
      have := suffix_append_right (rest.map Prod.snd) hb1s
      refine this.trans ?_
      simp [List.append_assoc]

theorem addAll_length_le :
    ∀ (events : List (Int × ChatItem)) (b0 : ChannelBuffer),
      b0.items.length ≤ b0.max_items →
      (addAll b0 events).items.length ≤ (addAll b0 events).max_items := by
  intro events
  induction events with
  | nil => intro b0 h; exact h
  | cons e rest ih =>
      intro b0 _
      have hstep : addAll b0 (e :: rest) = addAll (b0.add e.1 e.2) rest := rfl
      rw [hstep]
      exact ih _ (trim_length_le e.1 { b0 with items := b0.items ++ [e.2] })

end ChannelBuffer

/-- C1: for every chronological sequence of `add` operations (items carry
non-decreasing timestamps, as the Brain stamps each item with the current
time) followed by `snapshot` or `stats` at time `now` on a buffer with
window `W` and cap `M`: every item returned by `snapshot` — and every item
remaining in the buffer, which is exactly the snapshot list — has
`ts ≥ now - W`, the length is `≤ M`, and the surviving items form a suffix
of the arrival sequence (arrival order kept, oldest evicted first). -/
theorem channelBuffer_window_cap_order
    (W : Int) (M : Nat) (events : List (Int × ChatItem)) (now : Int)
    (hmono : events.Pairwise (fun e f => e.2.ts ≤ f.2.ts)) :
    (∀ it ∈ ((ChannelBuffer.addAll ⟨W, M, []⟩ events).snapshot now none).1,
        now - W ≤ it.ts) ∧
    ((ChannelBuffer.addAll ⟨W, M, []⟩ events).snapshot now none).1.length ≤ M ∧
    ((ChannelBuffer.addAll ⟨W, M, []⟩ events).snapshot now none).1 <:+
        events.map Prod.snd ∧
    (ChannelBuffer.addAll ⟨W, M, []⟩ events).items.length ≤ M ∧
    (ChannelBuffer.addAll ⟨W, M, []⟩ events).items <:+ events.map Prod.snd ∧
    ((ChannelBuffer.addAll ⟨W, M, []⟩ events).snapshot now none).2.items =
        ((ChannelBuffer.addAll ⟨W, M, []⟩ events).snapshot now none).1 ∧
    ((ChannelBuffer.addAll ⟨W, M, []⟩ events).stats now).2.items =
        ((ChannelBuffer.addAll ⟨W, M, []⟩ events).snapshot now none).1 := by
  obtain ⟨hw, hm, hpw, hsuf⟩ :=
    ChannelBuffer.addAll_spec events ⟨W, M, []⟩ (List.Pairwise.nil)
      (by intro x hx; simp at hx) hmono
  set b := ChannelBuffer.addAll ⟨W, M, []⟩ events with hb
  have hsnap1 : (b.snapshot now none).1 = (ChannelBuffer.trim now b).items := rfl
  have hsnap2 : (b.snapshot now none).2 = ChannelBuffer.trim now b := rfl
  have hstats2 : (b.stats now).2 = ChannelBuffer.trim now b := rfl
  have hsuf0 : b.items <:+ events.map Prod.snd := by
    simpa using hsuf
  refine ⟨?_, ?_, ?_, ?_, hsuf0, ?_, ?_⟩
  · intro it hit
    rw [hsnap1] at hit
    have := ChannelBuffer.mem_trim_ts_ge now b hpw it hit
    rw [hw] at this
    exact this
  · rw [hsnap1]
    have := ChannelBuffer.trim_length_le now b
    rw [hm] at this
    exact this
  · rw [hsnap1]
    exact (ChannelBuffer.trim_suffix now b).trans hsuf0
  · have := ChannelBuffer.addAll_length_le events ⟨W, M, []⟩ (by simp)
    rw [hm] at this
    exact this
  · rw [hsnap2, hsnap1]
  · rw [hstats2, hsnap1]

/-- Witness for C1 at a concrete event sequence. -/
theorem channelBuffer_window_cap_order_witness :
    ([((0 : Int), ChatItem.mk 0 "c" "u" "a"), (5, ChatItem.mk 5 "c" "u" "b"),
        (6, ChatItem.mk 6 "c" "u" "cc")].Pairwise
      (fun e f => e.2.ts ≤ f.2.ts)) ∧
    (∀ it ∈ ((ChannelBuffer.addAll ⟨10, 2, []⟩
        [((0 : Int), ChatItem.mk 0 "c" "u" "a"), (5, ChatItem.mk 5 "c" "u" "b"),
          (6, ChatItem.mk 6 "c" "u" "cc")]).snapshot 12 none).1,
        (12 : Int) - 10 ≤ it.ts) := by
  constructor
  · decide
  · exact (channelBuffer_window_cap_order 10 2
      [((0 : Int), ChatItem.mk 0 "c" "u" "a"), (5, ChatItem.mk 5 "c" "u" "b"),
        (6, ChatItem.mk 6 "c" "u" "cc")] 12 (by decide)).1

/-- C2: `decide_autospeak` returns exactly what the claim's ordered check
list prescribes — disabled/empty, global cooldown, busy chat, then SILENCE
with precedence over TOPIC_SHIFT — for every `(now, state, cfg, summary)`;
being a function of those four arguments it is pure and deterministic. -/
theorem decide_autospeak_ordered (now : Int) (state : PolicyState)
    (settings : Settings) (summary : Option Summary) :
    decide_autospeak now state settings summary =
      decide_autospeak_claim now state settings summary := by
  cases summary with
  | none =>
      by_cases h : settings.auto_speak_enabled <;>
        simp [decide_autospeak, decide_autospeak_claim, h]
  | some s =>
      by_cases h : settings.auto_speak_enabled
      · simp only [decide_autospeak, decide_autospeak_claim, h]
        by_cases h1 : now - state.last_speak_ts < settings.speak_every_sec <;>
        by_cases h2 : s.msgs_last_10s > settings.busy_chat_msgs_10s <;>
        by_cases h3 : s.last_message_age_sec ≥ settings.quiet_after_sec <;>
        by_cases hA1 : s.topic_fingerprint ≠ "" <;>
        by_cases hA2 : s.topic_fingerprint ≠ state.last_topic_fp <;>
        by_cases hC : now - state.last_topic_ts ≥ settings.topic_cooldown_sec <;>
        simp [h1, h2, h3, hA1, hA2, hC]
      · simp [decide_autospeak, decide_autospeak_claim, h]

theorem dedupLoop_eq_take :
    ∀ (l : List String) (seen : List String) (k : Nat), 1 ≤ k →
      dedupLoop k seen l = (dedupCIgo seen l).take k := by
  intro l
  induction l with
  | nil => intro seen k _; simp [dedupLoop, dedupCIgo]
  | cons q rest ih =>
      intro seen k hk
      by_cases hmem : pyLower q ∈ seen
      · simp only [dedupLoop, dedupCIgo, hmem, if_pos]
        exact ih seen k hk
      · by_cases hk1 : k ≤ 1
        · have : k = 1 := by omega
          subst this
          simp [dedupLoop, dedupCIgo, hmem]
        · simp only [dedupLoop, dedupCIgo, hmem, if_neg, if_pos, hk1, if_false,
            not_false_eq_true]
          rw [ih (pyLower q :: seen) (k - 1) (by omega)]
          have hks : k = (k - 1) + 1 := by omega
          rw [hks, List.take_succ_cons]
          simp

theorem filterMap_questions (items : List ChatItem) :
    items.filterMap (fun it =>
        if pyContainsChar it.text '?' && decide (2 < (pyStrip it.text).length) then
          some (pyStrip it.text)
        else none) =
      (items.filter (fun it =>
          pyContainsChar it.text '?' && decide (2 < (pyStrip it.text).length))).map
        (fun it => pyStrip it.text) := by
  induction items with
  | nil => rfl
  | cons it rest ih =>
      rw [List.filterMap_cons, List.filter_cons, ih]
      cases hc : (pyContainsChar it.text '?' && decide (2 < (pyStrip it.text).length)) <;>
        simp [hc]

/-- C5 counterexample: the item with text `" a?"` contains `?`, so the
claim as stated puts its original text into `questions`; the code strips
it to `"a?"` (length 2) and drops it, yielding no questions at all. -/
theorem extract_questions_counterexample :
    extract_questions [ChatItem.mk 0 "c" "u" " a?"] 3 ≠
      questions_claimed [ChatItem.mk 0 "c" "u" " a?"] 3 := by
  decide

/-- C5 amended: for every list of chat items, `questions` contains exactly
the stripped texts of the items whose text contains `?` and whose stripped
text is longer than 2 characters, deduplicated case-insensitively keeping
the first occurrence, capped at 3, in arrival order. -/
theorem extract_questions_amended (items : List ChatItem) :
    extract_questions items 3 = questions_amended items := by
  unfold extract_questions questions_amended dedupCI
  rw [filterMap_questions, dedupLoop_eq_take _ _ 3 (by omega)]

theorem splitOnce_none_iff (sep : Char) :
    ∀ l : List Char, splitOnce sep l = none ↔ l.contains sep = false := by
  intro l
  induction l with
  | nil => simp [splitOnce]
  | cons c rest ih =>
      by_cases h : c = sep
      · subst h
        simp [splitOnce]
      · simp [splitOnce, h, Option.map_eq_none', ih, List.contains_cons,
          Ne.symm h]

theorem splitOnce_some_contains (sep : Char) (l : List Char)
    (p : List Char × List Char) (h : splitOnce sep l = some p) :
    l.contains sep = true := by
  by_contra hfalse
  have hnone : l.contains sep = false := by
    revert hfalse
    cases l.contains sep <;> simp
  rw [← splitOnce_none_iff sep l] at hnone
  rw [hnone] at h
  exact Option.noConfusion h

/-- C9: `parse_irc_line` raises (returns `none`) exactly on the lines
whose `@`-tags section is not followed by a space or whose remainder
begins with `:` and contains no later space; on every other line it
returns a `WireMessage` normally. -/
theorem parse_irc_line_partial (line : String) :
    parse_irc_line line = none ↔ c9_raises line = true := by
  by_cases hat : startsWith '@' line.data
  · cases hs : splitOnce ' ' line.data with
    | none => simp [parse_irc_line, c9_raises, hat, hs]
    | some p =>
        by_cases hcol : startsWith ':' p.2
        · cases hso : splitOnce ' ' p.2 with
          | none =>
              have hcontains : ' ' ∉ p.2 := by
                simpa using (splitOnce_none_iff ' ' p.2).mp hso
              simp [parse_irc_line, c9_raises, hat, hs, hcol, hso,
                c9_prefix_bad, hcontains]
          | some q =>
              have hcontains : ' ' ∈ p.2 := by
                simpa using splitOnce_some_contains ' ' p.2 q hso
              simp [parse_irc_line, c9_raises, hat, hs, hcol, hso,
                c9_prefix_bad, hcontains]
        · simp [parse_irc_line, c9_raises, hat, hs, hcol, c9_prefix_bad]
  · by_cases hcol : startsWith ':' line.data
    · cases hso : splitOnce ' ' line.data with
      | none =>
          have hcontains : ' ' ∉ line.data := by
            simpa using (splitOnce_none_iff ' ' line.data).mp hso
          simp [parse_irc_line, c9_raises, hat, hcol, hso, c9_prefix_bad,
            hcontains]
      | some q =>
          have hcontains : ' ' ∈ line.data := by
            simpa using splitOnce_some_contains ' ' line.data q hso
          simp [parse_irc_line, c9_raises, hat, hcol, hso, c9_prefix_bad,
            hcontains]
    · simp [parse_irc_line, c9_raises, hat, hcol, c9_prefix_bad]

/-- C7: the line iterator never yields a `PING`, and for every `PING`
line read it writes `PONG :<payload>` with the PING's trailing payload
(falling back to the first parameter when the trailing part is absent or
empty, per Python truthiness) and keeps iterating: the written PONGs and
the yielded messages are exactly the `filterMap`s of the input lines. -/
theorem lines_ping_invariant :
    ∀ (input : List String) (pongs : List String) (msgs : List IrcMessage),
      runLines input = some (pongs, msgs) →
      (∀ m ∈ msgs, m.command ≠ "PING") ∧
      pongs = input.filterMap (fun raw =>
        match parse_irc_line (stripCRLF raw) with
        | some m =>
            if m.command = "PING" then some ("PONG :" ++ pingPayload m) else none
        | none => none) ∧
      msgs = input.filterMap (fun raw =>
        match parse_irc_line (stripCRLF raw) with
        | some m => if m.command = "PING" then none else some m
        | none => none) := by
  intro input
  induction input with
  | nil =>
      intro pongs msgs h
      simp only [runLines, Option.some.injEq, Prod.mk.injEq] at h
      obtain ⟨h1, h2⟩ := h
      subst h1; subst h2
      simp
  | cons raw rest ih =>
      intro pongs msgs h
      simp only [runLines] at h
      cases hp : parse_irc_line (stripCRLF raw) with
      | none => rw [hp] at h; exact absurd h (by simp)
      | some m =>
          rw [hp] at h
          cases hr : runLines rest with
          | none => rw [hr] at h; exact absurd h (by simp)
          | some pr =>
              rw [hr] at h
              obtain ⟨hponly, hpongs, hmsgs⟩ := ih pr.1 pr.2 (by rw [hr])
              by_cases hping : m.command = "PING"
              · simp only [hping, if_true, eq_self_iff_true, Option.some.injEq,
                  Prod.mk.injEq] at h
                obtain ⟨h1, h2⟩ := h
                subst h1; subst h2
                refine ⟨hponly, ?_, ?_⟩
                · simp only [List.filterMap_cons, hp, hping, if_pos]
                  rw [← hpongs]
                · simp only [List.filterMap_cons, hp, hping, if_pos]
                  exact hmsgs
              · simp only [hping, if_false, ite_false, Option.some.injEq,
                  Prod.mk.injEq] at h
                obtain ⟨h1, h2⟩ := h
                subst h1; subst h2
                refine ⟨?_, ?_, ?_⟩
                · intro m2 hm2
                  rcases List.mem_cons.mp hm2 with rfl | hm2
                  · exact hping
                  · exact hponly m2 hm2
                · simp only [List.filterMap_cons, hp, hping, if_neg,
                    not_false_eq_true]
                  rw [← hpongs]
                · simp only [List.filterMap_cons, hp, hping, if_neg,
                    not_false_eq_true]
                  rw [← hmsgs]

/-- Witness for C7 at a concrete input: a PING carrying a trailing
payload followed by a PRIVMSG; the PING is answered and not yielded. -/
theorem lines_ping_invariant_witness :
    runLines ["PING :abc\r\n", ":tmi PRIVMSG #c :hi\r\n"] =
      some (["PONG :abc"],
        [IrcMessage.mk ":tmi PRIVMSG #c :hi" [] (some "tmi") "PRIVMSG" ["#c"]
          (some "hi")]) ∧
    (∀ m ∈ [IrcMessage.mk ":tmi PRIVMSG #c :hi" [] (some "tmi") "PRIVMSG" ["#c"]
        (some "hi")], m.command ≠ "PING") := by
  constructor
  · decide
  · exact (lines_ping_invariant ["PING :abc\r\n", ":tmi PRIVMSG #c :hi\r\n"]
      ["PONG :abc"]
      [IrcMessage.mk ":tmi PRIVMSG #c :hi" [] (some "tmi") "PRIVMSG" ["#c"]
        (some "hi")] (by decide)).1

theorem isInfix_of_pref {α : Type} {u v : List α} (h : u <+: v) : u <:+: v := by
  obtain ⟨t, rfl⟩ := h
  exact ⟨[], t, by simp⟩

theorem isInfix_of_suffix {α : Type} {u v : List α} (h : u <:+ v) : u <:+: v := by
  obtain ⟨t, rfl⟩ := h
  exact ⟨t, [], by simp⟩

theorem cw_head? :
    ∀ (rest : List Char) (a : Char),
      (collapseWs (a :: rest)).head? = some (if isPySpace a then ' ' else a) := by
  intro rest
  induction rest with
  | nil =>
      intro a
      by_cases ha : isPySpace a <;> simp [collapseWs, ha]
  | cons b rr ih =>
      intro a
      by_cases hab : (isPySpace a && isPySpace b) = true
      · have ha : isPySpace a = true := (Bool.and_eq_true_iff.mp hab).1
        have hb : isPySpace b = true := (Bool.and_eq_true_iff.mp hab).2
        simp only [collapseWs, hab, if_pos]
        rw [ih b]
        simp [ha, hb]
      · have hab2 : (isPySpace a && isPySpace b) = false := by simpa using hab
        simp [collapseWs, hab2]

theorem cw_ne_nil (a : Char) (rest : List Char) : collapseWs (a :: rest) ≠ [] := by
  intro h
  have hh := cw_head? rest a
  rw [h] at hh
  simp at hh

theorem cw_mem_space :
    ∀ (l : List Char), ∀ c ∈ collapseWs l, isPySpace c = true → c = ' ' := by
  intro l
  induction l with
  | nil => simp [collapseWs]
  | cons a rest ih =>
      cases rest with
      | nil =>
          intro c hc hw
          by_cases ha : isPySpace a
          · simp [collapseWs, ha] at hc
            subst hc; rfl
          · simp [collapseWs, ha] at hc
            subst hc
            exact absurd hw ha
      | cons b rr =>
          intro c hc hw
          by_cases hab : (isPySpace a && isPySpace b) = true
          · simp only [collapseWs, hab, if_pos] at hc
            exact ih c hc hw
          · have hab2 : (isPySpace a && isPySpace b) = false := by simpa using hab
            simp only [collapseWs, hab2, Bool.false_eq_true, if_false,
              List.mem_cons] at hc
            rcases hc with rfl | hc
            · by_cases ha : isPySpace a
              · simp [ha]
              · rw [if_neg (by simpa using ha)] at hw ⊢
                exact absurd hw (by simpa using ha)
            · exact ih c hc hw

theorem cw_chain :
    ∀ (l : List Char),
      List.Chain' (fun x y => ¬(isPySpace x = true ∧ isPySpace y = true))
        (collapseWs l) := by
  intro l
  induction l with
  | nil => simp [collapseWs]
  | cons a rest ih =>
      cases rest with
      | nil =>
          by_cases ha : isPySpace a <;> simp [collapseWs, ha]
      | cons b rr =>
          by_cases hab : (isPySpace a && isPySpace b) = true
          · simpa [collapseWs, hab] using ih
          · have hab2 : (isPySpace a && isPySpace b) = false := by simpa using hab
            simp only [collapseWs, hab2, Bool.false_eq_true, if_false]
            rw [List.chain'_cons']
            refine ⟨?_, ih⟩
            intro y hy
            rw [cw_head? rr b] at hy
            simp only [Option.mem_def, Option.some.injEq] at hy
            subst hy
            by_cases h1 : isPySpace a
            · have h2 : isPySpace b = false := by
                rcases Bool.and_eq_false_iff.mp hab2 with h | h
                · rw [h1] at h; cases h
                · exact h
              simp [h1, h2]
            · simp [(by simpa using h1 : isPySpace a = false)]

theorem cw_eq_self :
    ∀ (l : List Char),
      List.Chain' (fun x y => ¬(isPySpace x = true ∧ isPySpace y = true)) l →
      (∀ c ∈ l, isPySpace c = true → c = ' ') →
      collapseWs l = l := by
  intro l
  induction l with
  | nil => intro _ _; rfl
  | cons a rest ih =>
      cases rest with
      | nil =>
          intro _ hmem
          by_cases ha : isPySpace a
          · have ha2 : a = ' ' := hmem a (List.mem_cons_self _ _) ha
            simp [collapseWs, ha, ha2]
          · simp [collapseWs, ha]
      | cons b rr =>
          intro hchain hmem
          have hnot : ¬(isPySpace a = true ∧ isPySpace b = true) :=
            (List.chain'_cons.mp hchain).1
          have hab2 : (isPySpace a && isPySpace b) = false := by
            by_cases h1 : isPySpace a
            · by_cases h2 : isPySpace b
              · exact absurd ⟨h1, h2⟩ hnot
              · simp [(by simpa using h2 : isPySpace b = false)]
            · simp [(by simpa using h1 : isPySpace a = false)]
          simp only [collapseWs, hab2, Bool.false_eq_true, if_false]
          rw [ih (List.chain'_cons.mp hchain).2
            (fun c hc hw => hmem c (List.mem_cons_of_mem _ hc) hw)]
          by_cases ha : isPySpace a
          · have ha2 : a = ' ' := hmem a (List.mem_cons_self _ _) ha
            simp [ha, ha2]
          · simp [ha]

theorem cw_idem (l : List Char) : collapseWs (collapseWs l) = collapseWs l :=
  cw_eq_self (collapseWs l) (cw_chain l) (cw_mem_space l)

theorem cw_getLast_nonws :
    ∀ (l : List Char) (z : Char), l.getLast? = some z → isPySpace z = false →
      (collapseWs l).getLast? = some z := by
  intro l
  induction l with
  | nil => intro z hz _; simp at hz
  | cons a rest ih =>
      cases rest with
      | nil =>
          intro z hz hws
          simp only [List.getLast?_singleton, Option.some.injEq] at hz
          subst hz
          simp [collapseWs, hws]
      | cons b rr =>
          intro z hz hws
          rw [List.getLast?_cons_cons] at hz
          have htail := ih z hz hws
          by_cases hab : (isPySpace a && isPySpace b) = true
          · simpa [collapseWs, hab] using htail
          · have hab2 : (isPySpace a && isPySpace b) = false := by simpa using hab
            simp only [collapseWs, hab2, Bool.false_eq_true, if_false]
            obtain ⟨h, t, heq⟩ := List.exists_cons_of_ne_nil (cw_ne_nil b rr)
            rw [heq, List.getLast?_cons_cons]
            rw [heq] at htail
            exact htail

theorem collapseRuns_nil : collapseRuns [] = [] := by
  rw [collapseRuns]

theorem collapseRuns_cons (c : Char) (rest : List Char) :
    collapseRuns (c :: rest) =
      List.replicate
        (if 7 ≤ 1 + (rest.takeWhile (fun d => d == c)).length ∧ c ≠ '\n' then 3
         else 1 + (rest.takeWhile (fun d => d == c)).length) c ++
        collapseRuns (rest.dropWhile (fun d => d == c)) := by
  rw [collapseRuns]

theorem takeWhile_beq_replicate (c : Char) (rest : List Char) :
    rest.takeWhile (fun d => d == c) =
      List.replicate (rest.takeWhile (fun d => d == c)).length c := by
  apply List.eq_replicate_of_mem
  intro d hd
  have hp := List.mem_takeWhile_imp hd
  exact eq_of_beq (by simpa using hp)

theorem cons_decomp_runs (c : Char) (rest : List Char) :
    c :: rest =
      List.replicate (1 + (rest.takeWhile (fun d => d == c)).length) c ++
        rest.dropWhile (fun d => d == c) := by
  have h1 : rest = rest.takeWhile (fun d => d == c) ++ rest.dropWhile (fun d => d == c) :=
    (List.takeWhile_append_dropWhile (p := fun d => d == c) (l := rest)).symm
  rw [Nat.add_comm 1 _, List.replicate_succ, List.cons_append]
  congr 1
  conv_lhs => rw [h1]
  rw [← takeWhile_beq_replicate c rest]

theorem getLast?_replicate_pos (c : Char) (n : Nat) (h : 1 ≤ n) :
    (List.replicate n c).getLast? = some c := by
  obtain ⟨n', rfl⟩ : ∃ n', n = n' + 1 := ⟨n - 1, by omega⟩
  rw [List.replicate_succ', List.getLast?_concat]

theorem cr_head? (l : List Char) : (collapseRuns l).head? = l.head? := by
  cases l with
  | nil => rw [collapseRuns_nil]
  | cons c rest =>
      rw [collapseRuns_cons]
      set m := if 7 ≤ 1 + (rest.takeWhile (fun d => d == c)).length ∧ c ≠ '\n'
        then 3 else 1 + (rest.takeWhile (fun d => d == c)).length with hm
      have hm1 : 1 ≤ m := by
        rw [hm]
        by_cases h7 : 7 ≤ 1 + (rest.takeWhile (fun d => d == c)).length ∧ c ≠ '\n'
        · rw [if_pos h7]; omega
        · rw [if_neg h7]; omega
      obtain ⟨m', hmeq⟩ : ∃ m', m = m' + 1 := ⟨m - 1, by omega⟩
      rw [hmeq, List.replicate_succ]
      simp

theorem cr_ne_nil {l : List Char} (h : l ≠ []) : collapseRuns l ≠ [] := by
  intro hc
  have hh := cr_head? l
  rw [hc] at hh
  cases l with
  | nil => exact h rfl
  | cons c rest => simp at hh

theorem cr_getLast?_aux :
    ∀ (N : Nat) (l : List Char), l.length ≤ N →
      (collapseRuns l).getLast? = l.getLast? := by
  intro N
  induction N with
  | zero =>
      intro l hl
      have : l = [] := List.eq_nil_of_length_eq_zero (by omega)
      subst this
      rw [collapseRuns_nil]
  | succ N ih =>
      intro l hl
      cases l with
      | nil => rw [collapseRuns_nil]
      | cons c rest =>
          have hdecomp := cons_decomp_runs c rest
          cases hrest2 : rest.dropWhile (fun d => d == c) with
          | nil =>
              rw [collapseRuns_cons, hrest2, collapseRuns_nil, List.append_nil]
              have h1 : c :: rest =
                  List.replicate (1 + (rest.takeWhile (fun d => d == c)).length) c := by
                rw [hdecomp, hrest2, List.append_nil]
              have hrhs : (c :: rest).getLast? = some c := by
                rw [h1]
                exact getLast?_replicate_pos c _ (by omega)
              rw [hrhs]
              by_cases h7 : 7 ≤ 1 + (rest.takeWhile (fun d => d == c)).length ∧ c ≠ '\n'
              · rw [if_pos h7]
                exact getLast?_replicate_pos c 3 (by omega)
              · rw [if_neg h7]
                exact getLast?_replicate_pos c _ (by omega)
          | cons d rr2 =>
              have hne : rest.dropWhile (fun d => d == c) ≠ [] := by
                rw [hrest2]; simp
              have hlen : (rest.dropWhile (fun d => d == c)).length ≤ N := by
                have h2 := (List.dropWhile_suffix (l := rest)
                  (fun d => d == c)).sublist.length_le
                simp only [List.length_cons] at hl
                omega
              rw [collapseRuns_cons]
              rw [List.getLast?_append_of_ne_nil _ (cr_ne_nil hne)]
              rw [ih _ hlen]
              conv_rhs => rw [hdecomp]
              rw [List.getLast?_append_of_ne_nil _ hne]

theorem replicate_prefix_replicate (c : Char) {k n : Nat} (h : k ≤ n) :
    List.replicate k c <+: List.replicate n c :=
  ⟨List.replicate (n - k) c, by rw [← List.replicate_add]; congr 1; omega⟩

theorem replicate_infix_replicate {c d : Char} {k m : Nat}
    (h : List.replicate k c <:+: List.replicate m d) :
    k = 0 ∨ (c = d ∧ k ≤ m) := by
  cases k with
  | zero => exact Or.inl rfl
  | succ k' =>
      right
      have hmem : c ∈ List.replicate m d := h.sublist.subset (by simp)
      refine ⟨List.eq_of_mem_replicate hmem, ?_⟩
      have hle := h.length_le
      simpa using hle

theorem replicate_prefix_append (c : Char) :
    ∀ (xs ys : List Char) (j : Nat), List.replicate j c <+: xs ++ ys →
      (List.replicate j c <+: xs) ∨
      (xs = List.replicate xs.length c ∧ xs.length ≤ j ∧
        List.replicate (j - xs.length) c <+: ys) := by
  intro xs
  induction xs with
  | nil =>
      intro ys j h
      right
      exact ⟨rfl, Nat.zero_le _, by simpa using h⟩
  | cons x xs' ih =>
      intro ys j h
      cases j with
      | zero => left; simp
      | succ j' =>
          rw [List.replicate_succ, List.cons_append, List.cons_prefix_cons] at h
          obtain ⟨hcx, h2⟩ := h
          subst hcx
          rcases ih ys j' h2 with h3 | ⟨hxs, hlen, hys⟩
          · left
            rw [List.replicate_succ]
            exact List.cons_prefix_cons.mpr ⟨rfl, h3⟩
          · right
            refine ⟨?_, ?_, ?_⟩
            · rw [List.length_cons, List.replicate_succ]
              rw [← hxs]
            · simp only [List.length_cons]; omega
            · have heq : j' + 1 - (c :: xs').length = j' - xs'.length := by
                simp only [List.length_cons]; omega
              rw [heq]
              exact hys

theorem replicate7_infix_append (c : Char) :
    ∀ (xs ys : List Char), List.replicate 7 c <:+: xs ++ ys →
      List.replicate 7 c <:+: xs ∨ List.replicate 7 c <:+: ys ∨
      (∃ k1, 0 < k1 ∧ k1 < 7 ∧ (List.replicate k1 c <:+ xs) ∧
        (List.replicate (7 - k1) c <+: ys)) := by
  intro xs
  induction xs with
  | nil => intro ys h; exact Or.inr (Or.inl (by simpa using h))
  | cons x xs' ih =>
      intro ys h
      rw [List.cons_append, List.infix_cons_iff] at h
      rcases h with hpre | hinf
      · rw [← List.cons_append] at hpre
        rcases replicate_prefix_append c (x :: xs') ys 7 hpre with
          h1 | ⟨hxs, hlen, hys⟩
        · exact Or.inl (isInfix_of_pref h1)
        · by_cases hL : (x :: xs').length = 7
          · left
            rw [hxs, hL]
          · right; right
            refine ⟨(x :: xs').length, ?_, ?_, ?_, hys⟩
            · simp
            · omega
            · conv_rhs => rw [hxs]
      · rcases ih ys hinf with h1 | h2 | ⟨k1, hk0, hk7, hsuf, hpre2⟩
        · exact Or.inl (List.infix_cons h1)
        · exact Or.inr (Or.inl h2)
        · exact Or.inr (Or.inr
            ⟨k1, hk0, hk7, hsuf.trans (List.suffix_cons x xs'), hpre2⟩)

theorem dropWhile_head_not (p : Char → Bool) :
    ∀ (l : List Char) (d : Char), (l.dropWhile p).head? = some d → p d = false := by
  intro l
  induction l with
  | nil => intro d h; simp [List.dropWhile] at h
  | cons c rest ih =>
      intro d h
      rw [List.dropWhile_cons] at h
      by_cases hc : p c = true
      · rw [if_pos hc] at h
        exact ih d h
      · rw [if_neg hc] at h
        simp only [List.head?_cons, Option.some.injEq] at h
        subst h
        simpa using hc

theorem head?_of_cons_pref {u t : List Char} {c : Char}
    (h : c :: t <+: u) : u.head? = some c := by
  cases u with
  | nil => exact absurd h (by simp)
  | cons x xs =>
      rw [List.cons_prefix_cons] at h
      simp [h.1]

theorem crNo7_aux :
    ∀ (N : Nat) (l : List Char), l.length ≤ N → ∀ c : Char, c ≠ '\n' →
      ¬(List.replicate 7 c <:+: collapseRuns l) := by
  intro N
  induction N with
  | zero =>
      intro l hl c _ h
      have hnil : l = [] := List.eq_nil_of_length_eq_zero (by omega)
      subst hnil
      rw [collapseRuns_nil] at h
      simpa using h.length_le
  | succ N ih =>
      intro l hl c hc h
      cases l with
      | nil =>
          rw [collapseRuns_nil] at h
          simpa using h.length_le
      | cons c0 rest =>
          rw [collapseRuns_cons] at h
          set k := (rest.takeWhile (fun d => d == c0)).length with hkdef
          have hm6 : (if 7 ≤ 1 + k ∧ c0 ≠ '\n' then 3 else 1 + k) ≤ 6 ∨
              c0 = '\n' := by
            by_cases h7 : 7 ≤ 1 + k ∧ c0 ≠ '\n'
            · left; rw [if_pos h7]; omega
            · rcases not_and_or.mp h7 with h8 | h8
              · left; rw [if_neg h7]; omega
              · right; simpa using h8
          have hlen2 : (rest.dropWhile (fun d => d == c0)).length ≤ N := by
            have h2 := (List.dropWhile_suffix (l := rest)
              (fun d => d == c0)).sublist.length_le
            simp only [List.length_cons] at hl
            omega
          rcases replicate7_infix_append c _ _ h with
            h1 | h2 | ⟨k1, hk0, hk7, hsuf, hpre⟩
          · rcases replicate_infix_replicate h1 with h0 | ⟨hcc0, h7m⟩
            · omega
            · subst hcc0
              rcases hm6 with hm6 | hm6
              · omega
              · exact hc hm6
          · exact ih _ hlen2 c hc h2
          · have hc0 : c = c0 := by
              have hmem : c ∈ List.replicate
                  (if 7 ≤ 1 + k ∧ c0 ≠ '\n' then 3 else 1 + k) c0 :=
                hsuf.sublist.subset (List.mem_replicate.mpr ⟨by omega, rfl⟩)
              exact List.eq_of_mem_replicate hmem
            have hhead : (collapseRuns (rest.dropWhile (fun d => d == c0))).head? =
                some c := by
              obtain ⟨j, hj⟩ : ∃ j, 7 - k1 = j + 1 := ⟨7 - k1 - 1, by omega⟩
              rw [hj, List.replicate_succ] at hpre
              exact head?_of_cons_pref hpre
            rw [cr_head?] at hhead
            have hd := dropWhile_head_not (fun d => d == c0) _ _ hhead
            simp only [beq_eq_false_iff_ne, ne_eq] at hd
            exact hd hc0

theorem cr_eq_self_aux :
    ∀ (N : Nat) (l : List Char), l.length ≤ N →
      List.Chain' (fun x y => ¬(isPySpace x = true ∧ isPySpace y = true)) l →
      (∀ c : Char, isPySpace c = false → ¬(List.replicate 7 c <:+: l)) →
      collapseRuns l = l := by
  intro N
  induction N with
  | zero =>
      intro l hl _ _
      have hnil : l = [] := List.eq_nil_of_length_eq_zero (by omega)
      subst hnil
      exact collapseRuns_nil
  | succ N ih =>
      intro l hl hchain hno7
      cases l with
      | nil => exact collapseRuns_nil
      | cons c0 rest =>
          set k := (rest.takeWhile (fun d => d == c0)).length with hkdef
          have hdecomp := cons_decomp_runs c0 rest
          have hk6 : 1 + k ≤ 6 := by
            by_cases hws : isPySpace c0 = true
            · have hk0 : rest.takeWhile (fun d => d == c0) = [] := by
                cases rest with
                | nil => rfl
                | cons d rr =>
                    rw [List.takeWhile_cons]
                    by_cases hdc : (d == c0) = true
                    · have hd : d = c0 := eq_of_beq hdc
                      subst hd
                      exact absurd ⟨hws, hws⟩ (List.chain'_cons.mp hchain).1
                    · rw [if_neg hdc]
              rw [hkdef, hk0]
              simp
            · by_contra h7
              apply hno7 c0 (by simpa using hws)
              apply isInfix_of_pref
              have hpr : List.replicate 7 c0 <+: List.replicate (1 + k) c0 :=
                replicate_prefix_replicate c0 (by omega)
              exact hpr.trans ⟨rest.dropWhile (fun d => d == c0), hdecomp.symm⟩
          have hsufrest2 : rest.dropWhile (fun d => d == c0) <:+ c0 :: rest :=
            (List.dropWhile_suffix (l := rest) (fun d => d == c0)).trans
              (List.suffix_cons c0 rest)
          have hlen2 : (rest.dropWhile (fun d => d == c0)).length ≤ N := by
            have h2 := (List.dropWhile_suffix (l := rest)
              (fun d => d == c0)).sublist.length_le
            simp only [List.length_cons] at hl
            omega
          rw [collapseRuns_cons]
          rw [if_neg (by intro h7; omega)]
          rw [ih _ hlen2 (hchain.suffix hsufrest2)
            (fun c hcw hinf => hno7 c hcw (hinf.trans (isInfix_of_suffix hsufrest2)))]
          exact hdecomp.symm

theorem dropWhile_eq_self_of_head (p : Char → Bool) (l : List Char)
    (h : ∀ d, l.head? = some d → p d = false) : l.dropWhile p = l := by
  cases l with
  | nil => rfl
  | cons c rest =>
      rw [List.dropWhile_cons, if_neg]
      simp [h c rfl]

theorem getLast?_of_suffix {u v : List Char} (h : u <:+ v) (hne : u ≠ []) :
    v.getLast? = u.getLast? := by
  obtain ⟨t, rfl⟩ := h
  exact List.getLast?_append_of_ne_nil t hne

theorem strip_head_not_ws (l : List Char) (d : Char)
    (h : (stripChars l).head? = some d) : isPySpace d = false := by
  unfold stripChars at h
  rw [List.head?_reverse] at h
  have hvne : (l.dropWhile isPySpace).reverse.dropWhile isPySpace ≠ [] := by
    intro h0
    rw [h0] at h
    simp at h
  have hsuf : (l.dropWhile isPySpace).reverse.dropWhile isPySpace <:+
      (l.dropWhile isPySpace).reverse := List.dropWhile_suffix _
  have h2 : ((l.dropWhile isPySpace).reverse).getLast? = some d := by
    rw [getLast?_of_suffix hsuf hvne]
    exact h
  rw [List.getLast?_reverse] at h2
  exact dropWhile_head_not isPySpace l d h2

theorem strip_last_not_ws (l : List Char) (d : Char)
    (h : (stripChars l).getLast? = some d) : isPySpace d = false := by
  unfold stripChars at h
  rw [List.getLast?_reverse] at h
  exact dropWhile_head_not isPySpace _ d h

theorem strip_eq_self (l : List Char)
    (hhead : ∀ d, l.head? = some d → isPySpace d = false)
    (hlast : ∀ d, l.getLast? = some d → isPySpace d = false) :
    stripChars l = l := by
  unfold stripChars
  rw [dropWhile_eq_self_of_head isPySpace l hhead]
  rw [dropWhile_eq_self_of_head isPySpace l.reverse
    (fun d hd => hlast d (by rw [← List.head?_reverse]; exact hd))]
  exact List.reverse_reverse l

theorem cw_replicate_prefix (c : Char) (hc : isPySpace c = false) :
    ∀ (l : List Char) (k : Nat), List.replicate k c <+: collapseWs l →
      List.replicate k c <+: l := by
  intro l
  induction l with
  | nil =>
      intro k h
      rw [show collapseWs [] = [] from rfl] at h
      have h0 : List.replicate k c = [] := List.prefix_nil.mp h
      rw [h0]
  | cons a rest ih =>
      cases rest with
      | nil =>
          intro k h
          by_cases ha : isPySpace a
          · rw [show collapseWs [a] = [' '] from by simp [collapseWs, ha]] at h
            cases k with
            | zero => simp
            | succ k' =>
                exfalso
                rw [List.replicate_succ, List.cons_prefix_cons] at h
                have hcs : isPySpace c = true := by rw [h.1]; decide
                rw [hcs] at hc
                exact Bool.noConfusion hc
          · rw [show collapseWs [a] = [a] from by simp [collapseWs, ha]] at h
            exact h
      | cons b rr =>
          intro k h
          by_cases hab : (isPySpace a && isPySpace b) = true
          · rw [show collapseWs (a :: b :: rr) = collapseWs (b :: rr) from by
              simp [collapseWs, hab]] at h
            cases k with
            | zero => simp
            | succ k' =>
                exfalso
                rw [List.replicate_succ] at h
                have hhd := head?_of_cons_pref h
                rw [cw_head? rr b] at hhd
                have hb : isPySpace b = true := (Bool.and_eq_true_iff.mp hab).2
                rw [if_pos hb] at hhd
                simp only [Option.some.injEq] at hhd
                rw [← hhd] at hc
                simp [isPySpace] at hc
          · have hab2 : (isPySpace a && isPySpace b) = false := by simpa using hab
            rw [show collapseWs (a :: b :: rr) =
                (if isPySpace a then ' ' else a) :: collapseWs (b :: rr) from by
              simp [collapseWs, hab2]] at h
            cases k with
            | zero => simp
            | succ k' =>
                rw [List.replicate_succ, List.cons_prefix_cons] at h
                obtain ⟨h1, h2⟩ := h
                have hxa : (if isPySpace a then ' ' else a) = a := by
                  by_cases ha : isPySpace a
                  · exfalso
                    rw [if_pos ha] at h1
                    rw [h1] at hc
                    simp [isPySpace] at hc
                  · rw [if_neg ha]
                rw [hxa] at h1
                subst h1
                rw [List.replicate_succ, List.cons_prefix_cons]
                exact ⟨rfl, ih k' h2⟩

theorem cw_no7_transfer (c : Char) (hc : isPySpace c = false) :
    ∀ (l : List Char), List.replicate 7 c <:+: collapseWs l →
      List.replicate 7 c <:+: l := by
  intro l
  induction l with
  | nil =>
      intro h
      rw [show collapseWs [] = [] from rfl] at h
      exact h
  | cons a rest ih =>
      cases rest with
      | nil =>
          intro h
          exfalso
          have hle := h.length_le
          have hlen1 : (collapseWs [a]).length = 1 := by
            by_cases ha : isPySpace a <;> simp [collapseWs, ha]
          rw [hlen1] at hle
          simp at hle
      | cons b rr =>
          intro h
          by_cases hab : (isPySpace a && isPySpace b) = true
          · rw [show collapseWs (a :: b :: rr) = collapseWs (b :: rr) from by
              simp [collapseWs, hab]] at h
            exact List.infix_cons (ih h)
          · have hab2 : (isPySpace a && isPySpace b) = false := by simpa using hab
            rw [show collapseWs (a :: b :: rr) =
                (if isPySpace a then ' ' else a) :: collapseWs (b :: rr) from by
              simp [collapseWs, hab2]] at h
            rw [List.infix_cons_iff] at h
            rcases h with hpre | hinf
            · rw [show (7 : Nat) = 6 + 1 from rfl, List.replicate_succ,
                List.cons_prefix_cons] at hpre
              obtain ⟨h1, h2⟩ := hpre
              have hxa : (if isPySpace a then ' ' else a) = a := by
                by_cases ha : isPySpace a
                · exfalso
                  rw [if_pos ha] at h1
                  rw [h1] at hc
                  simp [isPySpace] at hc
                · rw [if_neg ha]
              rw [hxa] at h1
              subst h1
              have h6 : List.replicate 6 c <+: b :: rr :=
                cw_replicate_prefix c hc (b :: rr) 6 h2
              apply isInfix_of_pref
              rw [show (7 : Nat) = 6 + 1 from rfl, List.replicate_succ]
              exact List.cons_prefix_cons.mpr ⟨rfl, h6⟩
            · exact List.infix_cons (ih hinf)

theorem normalizeChars_idem (l : List Char) :
    normalizeChars (normalizeChars l) = normalizeChars l := by
  unfold normalizeChars
  set s := stripChars l with hs
  set z := collapseRuns s with hz
  set y := collapseWs z with hy
  have hstrip : stripChars y = y := by
    apply strip_eq_self
    · intro d hd
      cases hzshape : z with
      | nil =>
          rw [hy, hzshape] at hd
          simp [collapseWs] at hd
      | cons c0 zz =>
          rw [hy, hzshape, cw_head? zz c0] at hd
          have hc0 : isPySpace c0 = false := by
            have hzh : z.head? = s.head? := by rw [hz]; exact cr_head? s
            rw [hzshape] at hzh
            exact strip_head_not_ws l c0 (by rw [← hs]; exact hzh.symm)
          rw [if_neg (by simp [hc0])] at hd
          simp only [Option.some.injEq] at hd
          rw [← hd]
          exact hc0
    · intro d hd
      cases hzshape : z with
      | nil =>
          rw [hy, hzshape] at hd
          simp [collapseWs] at hd
      | cons c0 zz =>
          have hzl : z.getLast? = s.getLast? := by
            rw [hz]; exact cr_getLast?_aux s.length s le_rfl
          have hsome : (z.getLast?).isSome := by
            rw [hzshape]
            cases hzz : (c0 :: zz).getLast? with
            | none =>
                exfalso
                have h0 := List.getLast?_isSome (l := c0 :: zz)
                rw [hzz] at h0
                simp at h0
            | some w => rfl
          obtain ⟨w, hw⟩ := Option.isSome_iff_exists.mp hsome
          have hwns : isPySpace w = false :=
            strip_last_not_ws l w (by rw [← hs, ← hzl]; exact hw)
          have hcwl := cw_getLast_nonws z w hw hwns
          rw [← hy] at hcwl
          rw [hcwl] at hd
          simp only [Option.some.injEq] at hd
          rw [← hd]
          exact hwns
  have hcr : collapseRuns y = y := by
    apply cr_eq_self_aux y.length y le_rfl
    · rw [hy]
      exact cw_chain z
    · intro c hcw hinf
      have h2 : List.replicate 7 c <:+: z := by
        rw [hy] at hinf
        exact cw_no7_transfer c hcw z hinf
      have hcnl : c ≠ '\n' := by
        intro hceq
        rw [hceq] at hcw
        simp [isPySpace] at hcw
      rw [hz] at h2
      exact crNo7_aux s.length s le_rfl c hcnl h2
  have hcw2 : collapseWs y = y := by
    rw [hy]
    exact cw_idem z
  rw [hstrip, hcr, hcw2]

/-- C8: `TextFilters.normalize` — strip, collapse every run of 7 or more
identical characters to exactly 3, collapse whitespace runs to single
spaces — is idempotent: `normalize (normalize t) = normalize t` for every
string `t`. -/
theorem normalize_idempotent (t : String) :
    TextFilters.normalize (TextFilters.normalize t) = TextFilters.normalize t := by
  unfold TextFilters.normalize
  show (⟨normalizeChars (normalizeChars t.data)⟩ : String) = ⟨normalizeChars t.data⟩
  rw [normalizeChars_idem]

/-- C3 counterexample: with `force_ru` and `retry_non_ru` enabled, a
first response with empty content, a second retry response whose content
is non-Russian and a third response make `_call_ollama_sync` issue three
HTTP requests in one invocation — the empty-content retry and the
language retry are not mutually exclusive, refuting the two-request
bound. -/
theorem call_ollama_three_requests :
    2 < (call_ollama_sync ⟨true, true⟩ ⟨"", "", "", "", ""⟩
      ⟨"hello there", "", "", "", ""⟩ ⟨"привет", "", "", "", ""⟩).2 := by
  decide

/-- C3 amended: per `generate` invocation the LLM-backed generator issues
at most three HTTP requests — at most one empty-content/length retry and
at most one non-Russian retry, which may follow the first retry when the
replacement content is still non-Russian; with the language retry
disabled (`force_ru` or `retry_non_ru` off) at most two requests are
issued. -/
theorem call_ollama_request_bound (cfg : OllamaCfg) (r1 r2 r3 : OllamaResp) :
    (call_ollama_sync cfg r1 r2 r3).2 ≤ 3 ∧
    ((cfg.force_ru = false ∨ cfg.retry_non_ru = false) →
      (call_ollama_sync cfg r1 r2 r3).2 ≤ 2) := by
  constructor
  · have hcount : ∀ (content : String) (count : Nat),
        (ruPhase cfg content r3 count).2 ≤ count + 1 := by
      intro content count
      unfold ruPhase
      dsimp only
      split_ifs <;> simp
    unfold call_ollama_sync
    dsimp only
    split_ifs <;>
      first
        | exact le_trans (hcount _ 2) (by omega)
        | exact le_trans (hcount _ 1) (by omega)
        | simp
  · intro h
    have hru : ∀ (content : String) (count : Nat),
        ruPhase cfg content r3 count = (Except.ok content, count) := by
      intro content count
      unfold ruPhase
      rw [if_neg]
      intro hcond
      rcases h with h | h <;> rw [h] at hcond <;> simp at hcond
    unfold call_ollama_sync
    dsimp only
    split_ifs <;> simp [hru]

/-- Witness for the amended C3 bound with the language retry disabled. -/
theorem call_ollama_request_bound_witness :
    ((false = false ∨ (true : Bool) = false) ∧
      (call_ollama_sync ⟨false, true⟩ ⟨"", "", "", "", ""⟩
        ⟨"ok", "", "", "", ""⟩ ⟨"x", "", "", "", ""⟩).2 ≤ 2) :=
  ⟨Or.inl rfl,
    (call_ollama_request_bound ⟨false, true⟩ ⟨"", "", "", "", ""⟩
      ⟨"ok", "", "", "", ""⟩ ⟨"x", "", "", "", ""⟩).2 (Or.inl rfl)⟩

/-- C6: for every OUT entry, a normalized-empty channel or empty text
leads to an ack of the entry's id with no PRIVMSG and no token
acquisition (the entry is dropped, and being acked it is never
redelivered); a valid entry produces exactly the trace acquire-1,
PRIVMSG (with its reply correlation), ack — one PRIVMSG, emitted before
the single ack. -/
theorem process_out_validation (msg_id : String) (data : List (String × String)) :
    ((normalize_channel (fieldGet data "channel") = "" ∨ fieldGet data "text" = "") →
      process_out_one msg_id data = [Effect.ack msg_id]) ∧
    (normalize_channel (fieldGet data "channel") ≠ "" →
      fieldGet data "text" ≠ "" →
      process_out_one msg_id data =
        [Effect.acquire 1,
         Effect.privmsg (normalize_channel (fieldGet data "channel"))
           (fieldGet data "text") (replyToOf data),
         Effect.ack msg_id]) ∧
    (process_out_one msg_id data).getLast? = some (Effect.ack msg_id) ∧
    (process_out_one msg_id data).countP
        (fun e => match e with | Effect.privmsg _ _ _ => true | _ => false) ≤ 1 ∧
    (process_out_one msg_id data).countP
        (fun e => match e with | Effect.ack _ => true | _ => false) = 1 := by
  by_cases hbad : normalize_channel (fieldGet data "channel") = "" ∨
      fieldGet data "text" = ""
  · have heq : process_out_one msg_id data = [Effect.ack msg_id] := by
      unfold process_out_one
      rw [if_pos hbad]
    refine ⟨fun _ => heq, ?_, ?_, ?_, ?_⟩
    · intro h1 h2
      rcases hbad with hb | hb
      · exact absurd hb h1
      · exact absurd hb h2
    · rw [heq]; rfl
    · rw [heq]; simp [List.countP_cons]
    · rw [heq]; simp [List.countP_cons]
  · have heq : process_out_one msg_id data =
        [Effect.acquire 1,
         Effect.privmsg (normalize_channel (fieldGet data "channel"))
           (fieldGet data "text") (replyToOf data),
         Effect.ack msg_id] := by
      unfold process_out_one
      rw [if_neg hbad]
    refine ⟨fun h => absurd h hbad, fun _ _ => heq, ?_, ?_, ?_⟩
    · rw [heq]; rfl
    · rw [heq]; simp [List.countP_cons]
    · rw [heq]; simp [List.countP_cons]

/-- Witness for C6 at a concrete valid OUT entry. -/
theorem process_out_validation_witness :
    (normalize_channel (fieldGet [("channel", "#Chan"), ("text", "hi")] "channel") ≠ "") ∧
    (fieldGet [("channel", "#Chan"), ("text", "hi")] "text" ≠ "") ∧
    process_out_one "7" [("channel", "#Chan"), ("text", "hi")] =
      [Effect.acquire 1, Effect.privmsg "chan" "hi" none, Effect.ack "7"] := by
  refine ⟨by decide, by decide, ?_⟩
  have h := (process_out_validation "7" [("channel", "#Chan"), ("text", "hi")]).2.1
    (by decide) (by decide)
  exact h.trans (by decide)

theorem acquire_never_returns :
    ∀ (deltas : List Rat) (b : TokenBucket) (now amount : Rat),
      b.capacity < amount →
      TokenBucket.acquireLoop amount b now deltas = none := by
  intro deltas
  induction deltas with
  | nil =>
      intro b now amount hlt
      unfold TokenBucket.acquireLoop
      dsimp only
      rw [if_neg]
      intro hle
      have h1 : (TokenBucket.refill now b).tokens ≤ b.capacity :=
        min_le_left _ _
      linarith
  | cons d ds ih =>
      intro b now amount hlt
      unfold TokenBucket.acquireLoop
      dsimp only
      rw [if_neg]
      · exact ih _ _ amount hlt
      · intro hle
        have h1 : (TokenBucket.refill now b).tokens ≤ b.capacity :=
          min_le_left _ _
        linarith

theorem acquire_second_wakeup (b1 : TokenBucket) (amount d now2 : Rat)
    (hcap : 0 < b1.capacity) (hwin : 0 < b1.window_sec)
    (hamt : amount ≤ b1.capacity) (hd : 0 ≤ d)
    (hnow2 : now2 = b1.updated_at +
      max (1 / 100) ((amount - b1.tokens) / (b1.capacity / b1.window_sec)) + d) :
    amount ≤ (TokenBucket.refill now2 b1).tokens := by
  have hrate : 0 < b1.capacity / b1.window_sec := div_pos hcap hwin
  show amount ≤ min b1.capacity
    (b1.tokens + (now2 - b1.updated_at) * (b1.capacity / b1.window_sec))
  rw [le_min_iff]
  refine ⟨hamt, ?_⟩
  have hsub : now2 - b1.updated_at =
      max (1 / 100 : Rat) ((amount - b1.tokens) / (b1.capacity / b1.window_sec)) + d := by
    rw [hnow2]; ring
  rw [hsub]
  have hw : (amount - b1.tokens) / (b1.capacity / b1.window_sec) ≤
      max (1 / 100 : Rat) ((amount - b1.tokens) / (b1.capacity / b1.window_sec)) :=
    le_max_right _ _
  have h3 : amount - b1.tokens ≤
      max (1 / 100 : Rat) ((amount - b1.tokens) / (b1.capacity / b1.window_sec)) *
        (b1.capacity / b1.window_sec) := (div_le_iff₀ hrate).mp hw
  have h4 : 0 ≤ d * (b1.capacity / b1.window_sec) := mul_nonneg hd hrate.le
  have h5 : (max (1 / 100 : Rat) ((amount - b1.tokens) / (b1.capacity / b1.window_sec)) + d) *
      (b1.capacity / b1.window_sec) =
      max (1 / 100 : Rat) ((amount - b1.tokens) / (b1.capacity / b1.window_sec)) *
        (b1.capacity / b1.window_sec) + d * (b1.capacity / b1.window_sec) := by
    ring
  rw [h5]
  linarith

/-- C10: `TokenBucket.acquire` terminates for every `amount ≤ capacity` —
if the first refill does not already satisfy it, the single computed
sleep advances time enough that the next refill does — but for
`amount > capacity` it never returns: refill caps `tokens` at `capacity`,
so `tokens ≥ amount` is unreachable and the loop sleeps forever, for
every sleep schedule. -/
theorem tokenBucket_acquire (b : TokenBucket) (now amount : Rat)
    (deltas : List Rat) :
    (0 < b.capacity → 0 < b.window_sec → amount ≤ b.capacity →
      (∀ d ∈ deltas, 0 ≤ d) → deltas ≠ [] →
      (TokenBucket.acquireLoop amount b now deltas).isSome = true) ∧
    (b.capacity < amount →
      TokenBucket.acquireLoop amount b now deltas = none) := by
  constructor
  · intro hcap hwin hamt hds hne
    cases deltas with
    | nil => exact absurd rfl hne
    | cons d ds =>
        unfold TokenBucket.acquireLoop
        dsimp only
        by_cases h1 : amount ≤ (TokenBucket.refill now b).tokens
        · rw [if_pos h1]; rfl
        · rw [if_neg h1]
          have hkey := acquire_second_wakeup (TokenBucket.refill now b) amount d
            (now + max (1 / 100)
              ((amount - (TokenBucket.refill now b).tokens) /
                ((TokenBucket.refill now b).capacity /
                  (TokenBucket.refill now b).window_sec)) + d)
            hcap hwin hamt (hds d (List.mem_cons_self _ _)) rfl
          cases ds with
          | nil =>
              unfold TokenBucket.acquireLoop
              dsimp only
              rw [if_pos hkey]
              rfl
          | cons d2 ds2 =>
              unfold TokenBucket.acquireLoop
              dsimp only
              rw [if_pos hkey]
              rfl
  · intro hlt
    exact acquire_never_returns deltas b now amount hlt

/-- Witness for C10: with capacity 2 over window 1 the loop returns for
`amount = 1` given one available sleep, and never returns for
`amount = 3` on any schedule (here two sleeps). -/
theorem tokenBucket_acquire_witness :
    ((0 : Rat) < (TokenBucket.init 2 1 0).capacity ∧
      (0 : Rat) < (TokenBucket.init 2 1 0).window_sec ∧
      (1 : Rat) ≤ (TokenBucket.init 2 1 0).capacity ∧
      (TokenBucket.init 2 1 0).capacity < 3) ∧
    (TokenBucket.acquireLoop 1 (TokenBucket.init 2 1 0) 5 [0]).isSome = true ∧
    TokenBucket.acquireLoop 3 (TokenBucket.init 2 1 0) 5 [0, 0] = none := by
  refine ⟨⟨by decide, by decide, by decide, by decide⟩, ?_, ?_⟩
  · exact (tokenBucket_acquire (TokenBucket.init 2 1 0) 5 1 [0]).1
      (by decide) (by decide) (by decide) (by decide) (by decide)
  · exact (tokenBucket_acquire (TokenBucket.init 2 1 0) 5 3 [0, 0]).2 (by decide)

theorem lookup_append (A B : Doc) (k : String) :
    List.lookup k (A ++ B) =
      match List.lookup k A with
      | some v => some v
      | none => List.lookup k B := by
  induction A with
  | nil => simp [List.lookup]
  | cons kv A' ih =>
      cases kv with
      | mk k0 v0 =>
          cases hk : (k == k0) <;> simp [List.lookup, hk, ih]

theorem lookup_map_values (f : String → JVal → JVal) (l : Doc) (k : String) :
    List.lookup k (l.map (fun kv => (kv.1, f kv.1 kv.2))) =
      (List.lookup k l).map (f k) := by
  induction l with
  | nil => simp [List.lookup]
  | cons kv l' ih =>
      cases kv with
      | mk k0 v0 =>
          cases hk : (k == k0) with
          | false => simp [List.lookup, hk, ih]
          | true =>
              have hkeq : k = k0 := eq_of_beq hk
              subst hkeq
              simp [List.lookup, hk]

theorem lookup_filter_keep (p : String × JVal → Bool) (l : Doc) (k : String)
    (hall : ∀ v, p (k, v) = true) :
    List.lookup k (l.filter p) = List.lookup k l := by
  induction l with
  | nil => simp
  | cons kv l' ih =>
      cases kv with
      | mk k0 v0 =>
          cases hk : (k == k0) with
          | true =>
              have hkeq : k = k0 := eq_of_beq hk
              subst hkeq
              rw [List.filter_cons, if_pos (by simpa using hall v0)]
              simp [List.lookup, hk]
          | false =>
              rw [List.filter_cons]
              by_cases hp : p (k0, v0) = true
              · rw [if_pos (by simpa using hp)]
                simp [List.lookup, hk, ih]
              · rw [if_neg (by simpa using hp)]
                simp [List.lookup, hk, ih]

theorem lookup_filter_drop (p : String × JVal → Bool) (l : Doc) (k : String)
    (hall : ∀ v, p (k, v) = false) :
    List.lookup k (l.filter p) = none := by
  induction l with
  | nil => simp
  | cons kv l' ih =>
      cases kv with
      | mk k0 v0 =>
          rw [List.filter_cons]
          cases hk : (k == k0) with
          | true =>
              have hkeq : k = k0 := eq_of_beq hk
              subst hkeq
              rw [if_neg (by simp [hall v0])]
              exact ih
          | false =>
              by_cases hp : p (k0, v0) = true
              · rw [if_pos (by simpa using hp)]
                simp [List.lookup, hk, ih]
              · rw [if_neg (by simpa using hp)]
                exact ih

theorem lookup_dictUpdate (existing payload : Doc) (k : String) :
    List.lookup k (dictUpdate existing payload) =
      match List.lookup k existing with
      | some v => some ((List.lookup k payload).getD v)
      | none => List.lookup k payload := by
  unfold dictUpdate
  rw [lookup_append]
  rw [lookup_map_values (fun k0 v0 => (List.lookup k0 payload).getD v0) existing k]
  cases hx : List.lookup k existing with
  | some v => simp
  | none =>
      simp only [Option.map_none']
      exact lookup_filter_keep _ payload k (fun v => by simp [hx])

theorem to_dict_lookup_access (tb : TokenBundle) :
    List.lookup "access_token" tb.to_dict = some (JVal.str tb.access_token) := by
  unfold TokenBundle.to_dict
  simp [List.lookup]

theorem to_dict_lookup_refresh (tb : TokenBundle) (v : JVal)
    (h : tb.refresh_token = some v) :
    List.lookup "refresh_token" tb.to_dict = some v := by
  unfold TokenBundle.to_dict
  rw [h]
  simp [List.lookup]

theorem to_dict_lookup_obtained (tb : TokenBundle) (n : Int)
    (h : tb.obtained_at = some n) :
    List.lookup "obtained_at" tb.to_dict = some (JVal.num n) := by
  unfold TokenBundle.to_dict
  rw [h]
  cases tb.refresh_token <;> cases tb.scope <;> cases tb.token_type <;>
    cases tb.expires_in <;> simp [List.lookup]

theorem to_dict_lookup_other (tb : TokenBundle) (k : String)
    (h1 : k ≠ "access_token") (h2 : k ≠ "refresh_token") (h3 : k ≠ "scope")
    (h4 : k ≠ "token_type") (h5 : k ≠ "expires_in") (h6 : k ≠ "obtained_at") :
    List.lookup k tb.to_dict = none := by
  have b1 : (k == "access_token") = false := beq_eq_false_iff_ne.mpr h1
  have b2 : (k == "refresh_token") = false := beq_eq_false_iff_ne.mpr h2
  have b3 : (k == "scope") = false := beq_eq_false_iff_ne.mpr h3
  have b4 : (k == "token_type") = false := beq_eq_false_iff_ne.mpr h4
  have b5 : (k == "expires_in") = false := beq_eq_false_iff_ne.mpr h5
  have b6 : (k == "obtained_at") = false := beq_eq_false_iff_ne.mpr h6
  unfold TokenBundle.to_dict
  cases tb.refresh_token <;> cases tb.scope <;> cases tb.token_type <;>
    cases tb.expires_in <;> cases tb.obtained_at <;>
    simp [List.lookup, b1, b2, b3, b4, b5, b6]

/-- C4: after every successful refresh, re-reading the token file yields
the `access_token` of the refresh response; the file's `refresh_token`
equals the rotated one from the response, or the prior one (the rotating
token the manager sent, read from the file) when the response omitted it;
`obtained_at` is stamped to the refresh time; and every key of the prior
document other than the six bundle fields keeps its value. -/
theorem refresh_persistence (fileDoc : Doc) (arg : String) (resp : Doc)
    (now : Int) (tb : TokenBundle) (newDoc : Doc)
    (hprior : List.lookup "refresh_token" fileDoc = some (JVal.str arg))
    (hok : refresh fileDoc arg resp now = Except.ok (tb, newDoc))
    (a : String) (ha : List.lookup "access_token" resp = some (JVal.str a))
    (hane : a ≠ "") :
    (TokenBundle.from_dict newDoc).access_token = a ∧
    (∀ r : String, List.lookup "refresh_token" resp = some (JVal.str r) →
      r ≠ "" → List.lookup "refresh_token" newDoc = some (JVal.str r)) ∧
    (List.lookup "refresh_token" resp = none →
      List.lookup "refresh_token" newDoc = some (JVal.str arg)) ∧
    List.lookup "obtained_at" newDoc = some (JVal.num now) ∧
    (∀ k, k ≠ "access_token" → k ≠ "refresh_token" → k ≠ "scope" →
      k ≠ "token_type" → k ≠ "expires_in" → k ≠ "obtained_at" →
      List.lookup k newDoc = List.lookup k fileDoc) := by
  have hacc : (TokenBundle.from_dict resp).access_token = a := by
    simp [TokenBundle.from_dict, ha, JVal.truthy, JVal.asString, hane]
  unfold refresh at hok
  dsimp only at hok
  rw [if_neg (by rw [hacc]; exact hane)] at hok
  simp only [Except.ok.injEq, Prod.mk.injEq] at hok
  obtain ⟨htb, hnd⟩ := hok
  subst hnd
  set TB := TokenBundle.from_dict resp with hTB
  set tb1 := if TB.refresh_token = none then
    { TB with refresh_token := some (JVal.str arg) } else TB with htb1
  set tb2 := { tb1 with obtained_at := some now } with htb2
  have hwf : write_file_atomic (some fileDoc) tb2 = dictUpdate fileDoc tb2.to_dict :=
    rfl
  have h1acc : tb1.access_token = a := by
    by_cases hrt : TB.refresh_token = none <;> simp [htb1, hrt, hacc]
  have h2acc : tb2.access_token = a := by rw [htb2]; exact h1acc
  have hnewacc : List.lookup "access_token" (write_file_atomic (some fileDoc) tb2) =
      some (JVal.str a) := by
    rw [hwf, lookup_dictUpdate]
    have hp : List.lookup "access_token" tb2.to_dict = some (JVal.str a) := by
      rw [to_dict_lookup_access, h2acc]
    cases hx : List.lookup "access_token" fileDoc <;> simp [hp]
  refine ⟨?_, ?_, ?_, ?_, ?_⟩
  · simp [TokenBundle.from_dict, hnewacc, JVal.truthy, JVal.asString, hane]
  · intro r hr hrne
    have hTBr : TB.refresh_token = some (JVal.str r) := by
      rw [hTB]
      simp [TokenBundle.from_dict, hr, JVal.truthy, hrne]
    have h2r : tb2.refresh_token = some (JVal.str r) := by
      have hrtne : ¬TB.refresh_token = none := by rw [hTBr]; simp
      rw [htb2]
      simp [htb1, hrtne, hTBr]
    have hp := to_dict_lookup_refresh tb2 _ h2r
    rw [hwf, lookup_dictUpdate]
    cases hx : List.lookup "refresh_token" fileDoc <;> simp [hp]
  · intro hr
    have hTBr : TB.refresh_token = none := by
      rw [hTB]
      simp [TokenBundle.from_dict, hr]
    have h2r : tb2.refresh_token = some (JVal.str arg) := by
      rw [htb2]
      simp [htb1, hTBr]
    have hp := to_dict_lookup_refresh tb2 _ h2r
    rw [hwf, lookup_dictUpdate]
    cases hx : List.lookup "refresh_token" fileDoc <;> simp [hp]
  · have h2o : tb2.obtained_at = some now := by rw [htb2]
    have hp := to_dict_lookup_obtained tb2 now h2o
    rw [hwf, lookup_dictUpdate]
    cases hx : List.lookup "obtained_at" fileDoc <;> simp [hp]
  · intro k h1 h2 h3 h4 h5 h6
    have hp := to_dict_lookup_other tb2 k h1 h2 h3 h4 h5 h6
    rw [hwf, lookup_dictUpdate]
    cases hx : List.lookup k fileDoc <;> simp [hp, hx]

/-- Witness for C4 at a concrete prior document, refresh response and
refresh time; the unknown key `custom` survives the rewrite. -/
theorem refresh_persistence_witness :
    (refresh
        [("access_token", JVal.str "old"), ("refresh_token", JVal.str "r0"),
          ("custom", JVal.str "keep")] "r0"
        [("access_token", JVal.str "new"), ("refresh_token", JVal.str "r1")] 5 =
      Except.ok
        (TokenBundle.mk "new" (some (JVal.str "r1")) none none none (some 5),
          [("access_token", JVal.str "new"), ("refresh_token", JVal.str "r1"),
            ("custom", JVal.str "keep"), ("obtained_at", JVal.num 5)])) ∧
    (TokenBundle.from_dict
        [("access_token", JVal.str "new"), ("refresh_token", JVal.str "r1"),
          ("custom", JVal.str "keep"), ("obtained_at", JVal.num 5)]).access_token =
      "new" ∧
    List.lookup "custom"
        [("access_token", JVal.str "new"), ("refresh_token", JVal.str "r1"),
          ("custom", JVal.str "keep"), ("obtained_at", JVal.num 5)] =
      List.lookup "custom"
        [("access_token", JVal.str "old"), ("refresh_token", JVal.str "r0"),
          ("custom", JVal.str "keep")] := by
  refine ⟨by rfl, ?_, ?_⟩
  · exact (refresh_persistence
      [("access_token", JVal.str "old"), ("refresh_token", JVal.str "r0"),
        ("custom", JVal.str "keep")] "r0"
      [("access_token", JVal.str "new"), ("refresh_token", JVal.str "r1")] 5
      (TokenBundle.mk "new" (some (JVal.str "r1")) none none none (some 5))
      [("access_token", JVal.str "new"), ("refresh_token", JVal.str "r1"),
        ("custom", JVal.str "keep"), ("obtained_at", JVal.num 5)]
      (by decide) (by rfl) "new" (by decide) (by decide)).1
  · exact (refresh_persistence
      [("access_token", JVal.str "old"), ("refresh_token", JVal.str "r0"),
        ("custom", JVal.str "keep")] "r0"
      [("access_token", JVal.str "new"), ("refresh_token", JVal.str "r1")] 5
      (TokenBundle.mk "new" (some (JVal.str "r1")) none none none (some 5))
      [("access_token", JVal.str "new"), ("refresh_token", JVal.str "r1"),
        ("custom", JVal.str "keep"), ("obtained_at", JVal.num 5)]
      (by decide) (by rfl) "new" (by decide) (by decide)).2.2.2.2 "custom"
      (by decide) (by decide) (by decide) (by decide) (by decide) (by decide)

end TwitchRag
